import Mathlib

/-!
Verification development for the IPO unlock tracker core
(`circular-scraper.js`).  The JavaScript source is shallowly embedded:
strings become `List Char`, JavaScript numbers become `Nat`/`Int` (all
arithmetic on share counts is integral and far below 2^53, so the
embedding is exact), calendar dates become epoch-day counts (`Int`,
days since 1970-01-01, the day component of `Date.toISOString`), and
network effects become explicit oracle parameters.
-/

namespace IpoUnlock

/-! ## Calendar dates

The JavaScript code builds dates with `new Date(year, month0, day)`
(month 0-indexed, out-of-range fields normalised by the calendar) and
keys them by the first ten characters of `toISOString`, i.e. by the
civil day.  We model a date as its epoch-day number via the standard
civil-from-days / days-from-civil algorithms.
-/

/-- Epoch-day number of the civil date `y-m-d` (month 1-indexed).
Linear in `d`, so out-of-range day values roll over exactly as in
JavaScript. -/
def daysFromCivil (y m d : Int) : Int :=
  let yy : Int := if m ≤ 2 then y - 1 else y
  let era : Int := Int.fdiv yy 400
  let yoe : Int := yy - era * 400
  let mp : Int := Int.emod (m + 9) 12
  let doy : Int := Int.fdiv (153 * mp + 2) 5 + (d - 1)
  let doe : Int := yoe * 365 + Int.fdiv yoe 4 - Int.fdiv yoe 100 + doy
  era * 146097 + doe - 719468

/-- Civil date `(y, m, d)` of an epoch-day number (inverse of
`daysFromCivil` on normalised dates). -/
def civilFromDays (z0 : Int) : Int × Int × Int :=
  let z : Int := z0 + 719468
  let era : Int := Int.fdiv z 146097
  let doe : Int := z - era * 146097
  let yoe : Int :=
    Int.fdiv (doe - Int.fdiv doe 1460 + Int.fdiv doe 36524 - Int.fdiv doe 146096) 365
  let y : Int := yoe + era * 400
  let doy : Int := doe - (365 * yoe + Int.fdiv yoe 4 - Int.fdiv yoe 100)
  let mp : Int := Int.fdiv (5 * doy + 2) 153
  let d : Int := doy - Int.fdiv (153 * mp + 2) 5 + 1
  let m : Int := mp + (if mp < 10 then 3 else -9)
  (y + (if m ≤ 2 then 1 else 0), m, d)

/-- Year of an epoch-day number (`Date.getFullYear`). -/
def yearOfDay (z : Int) : Int := (civilFromDays z).1

/-- Embedding of `new Date(year, month0, day)`: the month is 0-indexed
and both month and day roll over. -/
def mkDate (year month0 day : Int) : Int :=
  daysFromCivil (year + Int.fdiv month0 12) (Int.emod month0 12 + 1) 1 + (day - 1)

/-- Convenient constructor for expected values in theorem statements:
epoch day of `y-m-d` with a 1-indexed month. -/
def dateOf (y m d : Int) : Int := daysFromCivil y m d

/-! ## Data model

`LockInEntry` and `UnlockEvent` mirror the objects built by the parser
and `buildUnlockEvents`.  Percentages are held in tenths of a percent
(`pct10`), the exact value of the JavaScript expression
`Math.round((shares / totalShares) * 1000) / 10` times ten.
-/

structure LockInEntry where
  shares : Nat
  isLocked : Bool
  unlockDate : Option Int
deriving Repr, DecidableEq

structure UnlockEvent where
  date : Option Int
  shares : Nat
  pct10 : Nat
  label : Option String
deriving Repr, DecidableEq

structure ParseResult where
  totalShares : Nat
  unlockEvents : List UnlockEvent
deriving Repr, DecidableEq

/-- Exact-arithmetic value of
`Math.round((shares / totalShares) * 1000)` (percentage in tenths of a
percent): for positive `total` this is the integer nearest to
`1000 * shares / total`, halves rounding up. -/
def pct10 (total shares : Nat) : Nat :=
  if 0 < total then (2000 * shares + total) / (2 * total) else 0

/-! ### The insertion-ordered `Map` of `buildUnlockEvents` -/

/-- Insert-or-add on an association list keyed by epoch day; mirrors
`unlockMap.set(dateKey, (unlockMap.get(dateKey) || 0) + entry.shares)`
on a JavaScript `Map` (insertion order preserved, existing key bumped
in place). -/
def insertAdd : List (Int × Nat) → Int → Nat → List (Int × Nat)
  | [], k, v => [(k, v)]
  | (k0, v0) :: rest, k, v =>
      if k0 = k then (k0, v0 + v) :: rest else (k0, v0) :: insertAdd rest k v

/-- One iteration of the `buildUnlockEvents` loop on the `unlockMap`:
a locked entry with a date is added under its day key, everything else
is skipped (`continue`). -/
def mapStep (m : List (Int × Nat)) (e : LockInEntry) : List (Int × Nat) :=
  if e.isLocked then
    match e.unlockDate with
    | none => m
    | some d => insertAdd m d e.shares
  else m

/-- Loop of `buildUnlockEvents` accumulating the `unlockMap`. -/
def unlockMapGo : List (Int × Nat) → List LockInEntry → List (Int × Nat)
  | m, [] => m
  | m, e :: es => unlockMapGo (mapStep m e) es

/-- The `unlockMap` after the whole loop. -/
def unlockMapOf (entries : List LockInEntry) : List (Int × Nat) :=
  unlockMapGo [] entries

/-- Loop accumulating `notLockedShares`. -/
def notLockedGo : Nat → List LockInEntry → Nat
  | acc, [] => acc
  | acc, e :: es => notLockedGo (if e.isLocked then acc else acc + e.shares) es

/-- Sum of the shares of entries that are not locked
(`notLockedShares` after the whole loop). -/
def notLockedSharesOf (entries : List LockInEntry) : Nat :=
  notLockedGo 0 entries

/-- Insertion into a key-sorted list of pairs. -/
def insertByKey (p : Int × Nat) : List (Int × Nat) → List (Int × Nat)
  | [] => [p]
  | q :: rest => if p.1 ≤ q.1 then p :: q :: rest else q :: insertByKey p rest

/-- Sorting the map entries by ascending key; the JavaScript
`sort((a, b) => a[0].localeCompare(b[0]))` on zero-padded ISO day keys
is exactly ascending-day order, and the keys are distinct, so any
comparison sort yields this unique result. -/
def sortByKey : List (Int × Nat) → List (Int × Nat)
  | [] => []
  | p :: rest => insertByKey p (sortByKey rest)

/-- Embedding of `buildUnlockEvents` (circular-scraper.js 941-985):
group locked entries by unlock day, sort ascending, compute rounded
percentages, and prepend the "Not under lock-in" bucket when the free
share count is positive. -/
def buildUnlockEvents (entries : List LockInEntry) (totalShares : Nat) : ParseResult :=
  let sorted := sortByKey (unlockMapOf entries)
  let dated := sorted.map (fun p =>
    { date := some p.1, shares := p.2, pct10 := pct10 totalShares p.2,
      label := none : UnlockEvent })
  let notLocked := notLockedSharesOf entries
  let evs :=
    if 0 < notLocked then
      { date := none, shares := notLocked, pct10 := pct10 totalShares notLocked,
        label := some "Not under lock-in" : UnlockEvent } :: dated
    else dated
  { totalShares := totalShares, unlockEvents := evs }

/-! ### Specification-side sums and predicates used in the theorems -/

/-- Total shares of a list of events. -/
def sumShares (evs : List UnlockEvent) : Nat := (evs.map UnlockEvent.shares).sum

/-- Total shares of a list of entries. -/
def sumEntryShares (es : List LockInEntry) : Nat := (es.map LockInEntry.shares).sum

/-- Shares of the not-locked entries. -/
def freeSum : List LockInEntry → Nat
  | [] => 0
  | e :: es => (if e.isLocked = false then e.shares else 0) + freeSum es

/-- Shares of locked entries scheduled on day `d`. -/
def scheduledSumOn (es : List LockInEntry) (d : Int) : Nat :=
  match es with
  | [] => 0
  | e :: es =>
      (if e.isLocked = true ∧ e.unlockDate = some d then e.shares else 0) +
        scheduledSumOn es d

/-- Shares of locked entries that carry some unlock day. -/
def scheduledSum : List LockInEntry → Nat
  | [] => 0
  | e :: es =>
      (if e.isLocked = true ∧ e.unlockDate ≠ none then e.shares else 0) + scheduledSum es

/-- Shares of locked entries without a recoverable unlock day. -/
def droppedSum : List LockInEntry → Nat
  | [] => 0
  | e :: es =>
      (if e.isLocked = true ∧ e.unlockDate = none then e.shares else 0) + droppedSum es

/-- Shares of entries with a non-null unlock date or not locked (the
entries that the specification says survive aggregation). -/
def contributingSum : List LockInEntry → Nat
  | [] => 0
  | e :: es =>
      (if e.unlockDate ≠ none ∨ e.isLocked = false then e.shares else 0) +
        contributingSum es

/-- First lookup by key in an association list (`Map.get`, default 0). -/
def lookupD : List (Int × Nat) → Int → Nat
  | [], _ => 0
  | (k0, v) :: rest, k => if k0 = k then v else lookupD rest k

/-- Keys of an association list. -/
def keysOf (m : List (Int × Nat)) : List Int := m.map Prod.fst

/-- Sum of the values of an association list. -/
def valuesSum (m : List (Int × Nat)) : Nat := (m.map Prod.snd).sum

/-- Key order used when sorting the map entries. -/
def KeyLe (a b : Int × Nat) : Prop := a.1 ≤ b.1

/-- The "Not under lock-in" bucket of `buildUnlockEvents`. -/
def bucketEvent (entries : List LockInEntry) (total : Nat) : UnlockEvent :=
  { date := none, shares := freeSum entries, pct10 := pct10 total (freeSum entries),
    label := some "Not under lock-in" }

/-- The dated events of `buildUnlockEvents` (day groups in ascending
day order). -/
def datedEventsOf (entries : List LockInEntry) (total : Nat) : List UnlockEvent :=
  (sortByKey (unlockMapOf entries)).map (fun p =>
    { date := some p.1, shares := p.2, pct10 := pct10 total p.2, label := none })

/-- Statement that `r` is `1000 * shares / total` rounded to the
nearest integer with halves rounded up — for non-negative values this
is exactly round-half-away-from-zero on the per-mille value, i.e. the
specification formula `round((groupShares / totalShares) * 1000)`. -/
def roundHalfUpPermille (total shares r : Nat) : Prop :=
  2 * total * r ≤ 2000 * shares + total ∧ 2000 * shares + total < 2 * total * (r + 1)

/-- Sum of the per-event `pct10` fields. -/
def sumPct10 (evs : List UnlockEvent) : Nat := (evs.map UnlockEvent.pct10).sum

/-! ## String utilities shared by the resolver and the parsers -/

/-- Does `p` occur at the start of `cs`? -/
def startsWithSeq : List Char → List Char → Bool
  | [], _ => true
  | _ :: _, [] => false
  | p :: ps, c :: cs => p == c && startsWithSeq ps cs

/-- Substring containment on character lists (`String.includes`). -/
def containsSeq : List Char → List Char → Bool
  | hay, pat =>
    match hay with
    | [] => startsWithSeq pat []
    | _ :: rest => startsWithSeq pat hay || containsSeq rest pat

/-- Check `(exchange || "").toUpperCase().includes("BSE")`. -/
def hasBSEHint (exchange : String) : Bool :=
  containsSeq (exchange.data.map Char.toUpper) ("BSE".data)

/-- Numeric value of a digit character. -/
def digitVal (c : Char) : Nat := c.toNat - 48

/-- Value of a list of digit characters. -/
def digitsVal (cs : List Char) : Nat :=
  cs.foldl (fun acc c => acc * 10 + digitVal c) 0

/-- Gregorian leap-year test. -/
def isLeapYear (y : Int) : Bool :=
  (Int.emod y 4 = 0 && Int.emod y 100 ≠ 0) || Int.emod y 400 = 0

/-- Days in a month (month 1-indexed). -/
def daysInMonth (y m : Int) : Int :=
  if m = 2 then (if isLeapYear y then 29 else 28)
  else if m = 4 ∨ m = 6 ∨ m = 9 ∨ m = 11 then 30
  else 31

/-- Embedding of `new Date(isoString)` for the ISO calendar-date forms
the callers supply (`YYYY-MM-DD`, optionally followed by a `T...` time
part): returns the epoch day, or `none` when the string is not a valid
ISO date (`isNaN(date.getTime())`). -/
def parseListingDate (s : String) : Option Int :=
  match s.data with
  | y1 :: y2 :: y3 :: y4 :: '-' :: m1 :: m2 :: '-' :: d1 :: d2 :: rest =>
      if y1.isDigit && y2.isDigit && y3.isDigit && y4.isDigit &&
          m1.isDigit && m2.isDigit && d1.isDigit && d2.isDigit &&
          (rest.isEmpty || rest.head? == some 'T') then
        let y : Int := (digitsVal [y1, y2, y3, y4] : Nat)
        let mo : Int := (digitsVal [m1, m2] : Nat)
        let d : Int := (digitsVal [d1, d2] : Nat)
        if 1 ≤ mo ∧ mo ≤ 12 ∧ 1 ≤ d ∧ d ≤ daysInMonth y mo then
          some (daysFromCivil y mo d)
        else none
      else none
  | _ => none

/-! ## Circular locator and retriever model

Network calls are abstracted by a `ScrapeEnv` of oracle results, one
per call site, preserving the control flow of
`getUnlockPercentages` / `findBSENotice` / `downloadBSEPDF`.
-/

structure NSECircularRef where
  circNumber : String
  zipUrl : Option String
  subject : String
  displayNo : String
deriving Repr, DecidableEq

structure BSENoticeRef where
  noticeId : String
  annexureUrl : Option String
  title : String
deriving Repr, DecidableEq

/-- Oracle results for the network-dependent steps:
`nseCircular` is the filtered NSE circulars API result, `nseParse` the
combined outcome of downloading the NSE zip and parsing its PDF
(`none` covers a missing PDF or any thrown error), `smeNotice` the
bsesme.com search result, `scan` the per-date outcome of the
brute-force identifier scan, and `bseParse` the combined outcome of
downloading and parsing the BSE annexure (`none` covers any thrown
error). -/
structure ScrapeEnv where
  nseCircular : Option NSECircularRef
  nseParse : Option ParseResult
  smeNotice : Option BSENoticeRef
  scan : Int → Option BSENoticeRef
  bseParse : Option ParseResult

/-- First non-null result of a sequence of probes. -/
def firstSome {α : Type} : List (Option α) → Option α
  | [] => none
  | some a :: _ => some a
  | none :: rest => firstSome rest

/-- Deduplication keeping first occurrences, with the set of already
seen elements made explicit. -/
def dedupSeen : List Int → List Int → List Int
  | _, [] => []
  | seen, x :: xs =>
      if x ∈ seen then dedupSeen seen xs else x :: dedupSeen (x :: seen) xs

/-- Keep the first occurrence of each element (`[...new Set(list)]`). -/
def dedupKeepFirst (l : List Int) : List Int := dedupSeen [] l

/-- Candidate-date generation of the BSE identifier scan
(circular-scraper.js 297-309): for each offset 0..5 the loop pushes
`listDate - offset` first (when the offset is positive) and then
`listDate + offset`, and the result is deduplicated keeping first
occurrences.  Dates are modeled as epoch days; the `YYYYMMDD`
rendering is injective on days so the `Set` deduplication is
unchanged. -/
def noticeDates (listDate : Int) : List Int :=
  dedupKeepFirst
    ((List.range 6).foldl
      (fun acc off =>
        acc ++ (if off = 0 then [] else [listDate - (off : Int)]) ++ [listDate + (off : Int)])
      [])

/-- Embedding of `findNSECircular` at the resolution level: the
function returns null for a missing company name or listing date and
for an unparseable listing date, and otherwise reports the API search
outcome. -/
def findNSECircular (env : ScrapeEnv) (companyName listingDateISO : String) :
    Option NSECircularRef :=
  if companyName = "" ∨ listingDateISO = "" then none
  else if (parseListingDate listingDateISO).isNone then none
  else env.nseCircular

/-- Embedding of `findBSENotice` (circular-scraper.js 273-317): null
checks first, then the bsesme.com search, then the listing-date parse
check, then the identifier scan over the candidate dates. -/
def findBSENotice (env : ScrapeEnv) (companyName listingDateISO : String) :
    Option BSENoticeRef :=
  if companyName = "" ∨ listingDateISO = "" then none
  else
    match env.smeNotice with
    | some r => some r
    | none =>
        match parseListingDate listingDateISO with
        | none => none
        | some d => firstSome ((noticeDates d).map env.scan)

/-- Results of `getUnlockPercentages`: null, a resolved schedule
(with source and notice id), the client-fetch delegation signal, or
the full BSE-search delegation signal (listing date, company name,
source). -/
inductive Outcome where
  | notFound : Outcome
  | resolved : ParseResult → String → String → Outcome
  | clientFetch : String → Outcome
  | bseSearch : String → String → String → Outcome
deriving Repr, DecidableEq

/-- Keys of the JavaScript object value returned in each case (the
`fetchedAt` timestamp is a field of the resolved object but its clock
value is not modeled). -/
def Outcome.jsonFields : Outcome → List String
  | .notFound => []
  | .resolved _ _ _ => ["totalShares", "unlockEvents", "source", "noticeId", "fetchedAt"]
  | .clientFetch _ => ["needsClientFetch", "bseNoticeId", "source"]
  | .bseSearch _ _ _ => ["needsBSESearch", "listingDate", "companyName", "source"]

/-- Embedding of `getUnlockPercentages` (circular-scraper.js
1060-1148): missing listing date short-circuits; the NSE branch
resolves only when the zip is present and parsing produced at least
one unlock event; the BSE branch resolves, falls back to the
client-fetch signal on a failed download, or — when no notice was
found at all — returns the BSE-search signal when the exchange hint
names BSE and null otherwise. -/
def getUnlockPercentages (env : ScrapeEnv) (companyName exchange listingDateISO : String) :
    Outcome :=
  if listingDateISO = "" then .notFound
  else
    let nseStep : Option Outcome :=
      match findNSECircular env companyName listingDateISO with
      | some c =>
          match c.zipUrl with
          | some _ =>
              match env.nseParse with
              | some r =>
                  if 0 < r.unlockEvents.length then some (.resolved r "NSE" c.displayNo)
                  else none
              | none => none
          | none => none
      | none => none
    match nseStep with
    | some o => o
    | none =>
        match findBSENotice env companyName listingDateISO with
        | some n =>
            match n.annexureUrl with
            | some _ =>
                match env.bseParse with
                | some r => .resolved r "BSE" n.noticeId
                | none => .clientFetch n.noticeId
            | none => .clientFetch n.noticeId
        | none =>
            if hasBSEHint exchange then .bseSearch listingDateISO companyName "BSE"
            else .notFound

/-- Environment in which every lookup yields nothing. -/
def envNone : ScrapeEnv :=
  { nseCircular := none, nseParse := none, smeNotice := none,
    scan := fun _ => none, bseParse := none }

/-- Embedding of the curl fallback tail of `downloadBSEPDF`
(circular-scraper.js 566-572): a missing or sub-100-byte payload
raises. -/
def bseCurlFallback (curl : Option (List Nat)) : Except String (List Nat) :=
  match curl with
  | none => Except.error "curl PDF download returned empty or too-small response"
  | some b =>
      if b.length < 100 then
        Except.error "curl PDF download returned empty or too-small response"
      else Except.ok b

/-- Embedding of `downloadBSEPDF` (circular-scraper.js 540-573): the
axios response is returned as-is on status 200; any other status or a
thrown request falls back to curl. -/
def downloadBSEPDF (axiosResp : Option (Nat × List Nat)) (curl : Option (List Nat)) :
    Except String (List Nat) :=
  match axiosResp with
  | some (status, body) => if status = 200 then Except.ok body else bseCurlFallback curl
  | none => bseCurlFallback curl

/-! ## Text scanning for the lock-in table extractor

The extractor regexes are embedded as character-list matchers.  Each
`match...At` function decides whether the pattern matches at the head
of the list (with the pattern's greedy/backtracking behaviour) and
returns the matched length with its captures; the `scanGo`/`replaceGo`
drivers reproduce the global-regex scan (advance past a match, else
advance one character).
-/

/-- Character class `\s` (JavaScript whitespace, ASCII part). -/
def isWsCh (c : Char) : Bool :=
  c = ' ' ∨ c = '\t' ∨ c = '\n' ∨ c = '\r' ∨ c = '\x0b' ∨ c = '\x0c'

/-- Character class `\w`. -/
def isWordCh (c : Char) : Bool := c.isAlpha ∨ c.isDigit ∨ c = '_'

/-- Character class `[\d,]`. -/
def isDigitComma (c : Char) : Bool := c.isDigit ∨ c = ','

/-- Scan driver for a global regex: collect `(index, capture)` for
every match, resuming after each match. -/
def scanGo {α : Type} (tm : List Char → Option (Nat × α)) :
    Nat → Nat → List Char → List (Nat × α)
  | 0, _, _ => []
  | _ + 1, _, [] => []
  | fuel + 1, idx, c :: rest =>
      match tm (c :: rest) with
      | some (len, a) =>
          (idx, a) :: scanGo tm fuel (idx + max len 1) (List.drop (max len 1) (c :: rest))
      | none => scanGo tm fuel (idx + 1) rest

/-- All matches of a pattern in a text. -/
def scanAll {α : Type} (tm : List Char → Option (Nat × α)) (cs : List Char) :
    List (Nat × α) :=
  scanGo tm cs.length 0 cs

/-- Replace driver for a global `String.replace`: each match is
replaced and scanning resumes after it. -/
def replaceGo (tm : List Char → Option (Nat × List Char)) :
    Nat → List Char → List Char
  | 0, cs => cs
  | _ + 1, [] => []
  | fuel + 1, c :: rest =>
      match tm (c :: rest) with
      | some (len, repl) => repl ++ replaceGo tm fuel (List.drop (max len 1) (c :: rest))
      | none => c :: replaceGo tm fuel rest

/-- Replace every match of a pattern in a text. -/
def replaceAll (tm : List Char → Option (Nat × List Char)) (cs : List Char) : List Char :=
  replaceGo tm cs.length cs

/-- Driver for `String.search`: index of the first position where the
pattern matches, `-1` when there is none. -/
def searchIdxGo (tm : List Char → Bool) : Nat → Nat → List Char → Int
  | 0, _, _ => -1
  | _ + 1, _, [] => -1
  | fuel + 1, idx, c :: rest =>
      if tm (c :: rest) then (idx : Int) else searchIdxGo tm fuel (idx + 1) rest

/-- Index of the first match of a pattern, `-1` when there is none. -/
def searchIdx (tm : List Char → Bool) (cs : List Char) : Int :=
  searchIdxGo tm cs.length 0 cs

/-- Leading-digits integer parse (`parseInt` on the digit-run tokens
produced by the scanners): `none` models `NaN`. -/
def parseIntLeading (cs : List Char) : Option Nat :=
  let ds := cs.takeWhile Char.isDigit
  if ds.isEmpty then none else some (digitsVal ds)

/-- Value of `parseIndianNumber`: strip comma grouping, `parseInt`,
`|| 0`. -/
def parseIndianNumber (cs : List Char) : Nat :=
  match parseIntLeading (cs.filter (fun c => c ≠ ',')) with
  | some n => n
  | none => 0

/-- Take exactly `n` leading digits, refusing shorter prefixes. -/
def takeDigitsExact (cs : List Char) (n : Nat) : Option (List Char) :=
  let ds := (cs.take n).takeWhile Char.isDigit
  if ds.length = n then some ds else none

/-- Match `(\d{1,2})sep(\d{1,2})sep(\d{4})` (dot or slash dated
forms), greedy on the one-or-two digit groups with backtracking.
Returns the matched length and the day, month and year captures. -/
def matchNumDateAt (sep : Char) (cs : List Char) :
    Option (Nat × (List Char × List Char × List Char)) :=
  let tryLen := fun (dl : Nat) =>
    match takeDigitsExact cs dl with
    | none => none
    | some ds =>
        let r1 := cs.drop dl
        match r1 with
        | c1 :: r2 =>
            if c1 = sep then
              let tryM := fun (ml : Nat) =>
                match takeDigitsExact r2 ml with
                | none => none
                | some ms =>
                    let r3 := r2.drop ml
                    match r3 with
                    | c2 :: r4 =>
                        if c2 = sep then
                          match takeDigitsExact r4 4 with
                          | some ys => some (dl + 1 + ml + 1 + 4, (ds, ms, ys))
                          | none => none
                        else none
                    | [] => none
              match tryM 2 with
              | some r => some r
              | none => tryM 1
            else none
        | [] => none
  match tryLen 2 with
  | some r => some r
  | none => tryLen 1

/-- Match `(\d{1,2})-(\w{3,}|\d{1,2})-(\d{4})`: greedy day with
backtracking, month as a maximal word run of length at least 3 (its
maximality is forced since `\w` excludes the dash) or else one or two
digits. -/
def matchDashDateAt (cs : List Char) :
    Option (Nat × (List Char × List Char × List Char)) :=
  let tryLen := fun (dl : Nat) =>
    match takeDigitsExact cs dl with
    | none => none
    | some ds =>
        let r1 := cs.drop dl
        match r1 with
        | c1 :: r2 =>
            if c1 = '-' then
              let w := r2.takeWhile isWordCh
              let wordBranch :=
                if 3 ≤ w.length then
                  let r3 := r2.drop w.length
                  match r3 with
                  | c2 :: r4 =>
                      if c2 = '-' then
                        match takeDigitsExact r4 4 with
                        | some ys => some (dl + 1 + w.length + 1 + 4, (ds, w, ys))
                        | none => none
                      else none
                  | [] => none
                else none
              match wordBranch with
              | some r => some r
              | none =>
                  let tryM := fun (ml : Nat) =>
                    match takeDigitsExact r2 ml with
                    | none => none
                    | some ms =>
                        let r3 := r2.drop ml
                        match r3 with
                        | c2 :: r4 =>
                            if c2 = '-' then
                              match takeDigitsExact r4 4 with
                              | some ys => some (dl + 1 + ml + 1 + 4, (ds, ms, ys))
                              | none => none
                            else none
                        | [] => none
                  match tryM 2 with
                  | some r => some r
                  | none => tryM 1
            else none
        | [] => none
  match tryLen 2 with
  | some r => some r
  | none => tryLen 1

/-- The date alternation of the masking / date-near / proximity
regexes (dash form first, then dot, then slash). -/
def matchDateMaskAt (cs : List Char) :
    Option (Nat × (List Char × List Char × List Char)) :=
  match matchDashDateAt cs with
  | some r => some r
  | none =>
      match matchNumDateAt '.' cs with
      | some r => some r
      | none => matchNumDateAt '/' cs

/-- The date alternation of `parseBSEDate` (dot form first, then
slash, then dash). -/
def matchDateBSEAt (cs : List Char) :
    Option (Nat × (List Char × List Char × List Char)) :=
  match matchNumDateAt '.' cs with
  | some r => some r
  | none =>
      match matchNumDateAt '/' cs with
      | some r => some r
      | none => matchDashDateAt cs

/-- First match of a date alternation anywhere in a token
(`String.match` without the global flag). -/
def firstDateMatch
    (tm : List Char → Option (Nat × (List Char × List Char × List Char))) :
    Nat → List Char → Option (List Char × List Char × List Char)
  | 0, _ => none
  | _ + 1, [] => none
  | fuel + 1, c :: rest =>
      match tm (c :: rest) with
      | some (_, caps) => some caps
      | none => firstDateMatch tm fuel rest

/-- Month-name lookup of `parseBSEDate` (0-indexed months). -/
def monthIdxOf (s : List Char) : Option Nat :=
  if s = ['j', 'a', 'n'] then some 0
  else if s = ['f', 'e', 'b'] then some 1
  else if s = ['m', 'a', 'r'] then some 2
  else if s = ['a', 'p', 'r'] then some 3
  else if s = ['m', 'a', 'y'] then some 4
  else if s = ['j', 'u', 'n'] then some 5
  else if s = ['j', 'u', 'l'] then some 6
  else if s = ['a', 'u', 'g'] then some 7
  else if s = ['s', 'e', 'p'] then some 8
  else if s = ['o', 'c', 't'] then some 9
  else if s = ['n', 'o', 'v'] then some 10
  else if s = ['d', 'e', 'c'] then some 11
  else none

/-- Month resolution of `parseBSEDate`: numeric months are decremented
to 0-indexed, word months looked up by their lowercase three-letter
key; `none` models the `undefined` / `NaN` rejection. -/
def resolveMonth0 (ms : List Char) : Option Int :=
  match parseIntLeading ms with
  | some n => some ((n : Int) - 1)
  | none => (monthIdxOf ((ms.map Char.toLower).take 3)).map (fun k => (k : Int))

/-- Case-insensitive match of a literal pattern at the head. -/
def startsWithCI : List Char → List Char → Bool
  | [], _ => true
  | _ :: _, [] => false
  | p :: ps, c :: cs => p.toLower == c.toLower && startsWithCI ps cs

/-- Replace the first case-insensitive occurrence of a literal
pattern. -/
def replaceFirstCI (pat repl : List Char) : List Char → List Char
  | [] => []
  | c :: rest =>
      if startsWithCI pat (c :: rest) then repl ++ (c :: rest).drop pat.length
      else c :: replaceFirstCI pat repl rest

/-- Replace the first occurrence of `Aul!` with an optional trailing
dot (`/Aul!\.?/i`) by `Aug`. -/
def replaceAulFix : List Char → List Char
  | [] => []
  | c :: rest =>
      if startsWithCI (['a', 'u', 'l', '!']) (c :: rest) then
        let after := (c :: rest).drop 4
        match after with
        | '.' :: tail => ('A' :: 'u' :: 'g' :: []) ++ tail
        | _ => ('A' :: 'u' :: 'g' :: []) ++ after
      else c :: replaceAulFix rest

/-- Embedding of `parseBSEDate` (circular-scraper.js 994-1044): first
try the dot / slash / dash alternation anywhere in the token; failing
that, correct known OCR misspellings, strip characters other than word
characters and dashes, and retry the dash form.  The result is the
epoch day of `new Date(year, month0, day)`. -/
def parseBSEDate (tok : List Char) : Option Int :=
  match firstDateMatch matchDateBSEAt tok.length tok with
  | some (ds, ms, ys) =>
      match parseIntLeading ds, resolveMonth0 ms, parseIntLeading ys with
      | some d, some m0, some y => some (mkDate (y : Int) m0 (d : Int))
      | _, _, _ => none
  | none =>
      let c1 := replaceAulFix tok
      let c2 := replaceFirstCI (['m', 'a', 'v']) (['M', 'a', 'y']) c1
      let c3 := replaceFirstCI (['a', 'o', 'r', 'i', 'l'])
        (['A', 'p', 'r', 'i', 'l']) c2
      let cleaned := c3.filter (fun c => isWordCh c ∨ c = '-')
      match firstDateMatch matchDashDateAt cleaned.length cleaned with
      | some (ds, ms, ys) =>
          match parseIntLeading ds, resolveMonth0 ms, parseIntLeading ys with
          | some d, some m0, some y => some (mkDate (y : Int) m0 (d : Int))
          | _, _, _ => none
      | none => none

/-- All date matches of the masking alternation, with indices and the
matched token text. -/
def scanDates (cs : List Char) : List (Nat × List Char) :=
  scanAll (fun s =>
    match matchDateMaskAt s with
    | some (len, _) => some (len, s.take len)
    | none => none) cs

/-- Greatest element of a list of epoch days. -/
def maxDay : List Int → Option Int
  | [] => none
  | x :: xs => some (xs.foldl max x)

/-- Embedding of `findDateNear` (circular-scraper.js 906-936): look in
a window of at most `min range 60` characters after `startIndex`,
truncated at the first newline when that newline is not at offset 0,
parse every date token whose year exceeds 2000, and return the latest
one. -/
def findDateNear (text : List Char) (startIndex range : Nat) : Option Int :=
  let chunk0 := (text.drop startIndex).take (min range 60)
  let chunk :=
    match chunk0.findIdx? (fun c => c = '\n') with
    | some n => if 0 < n then chunk0.take n else chunk0
    | none => chunk0
  let ds := (scanDates chunk).filterMap (fun p =>
    match parseBSEDate p.2 with
    | some z => if 2000 < yearOfDay z then some z else none
    | none => none)
  maxDay ds

/-! ## NSE structured-format parser -/

/-- Trailing token of an NSE table row: a lock-in expiry date or the
literal `Free`. -/
inductive NSETrail where
  | free : NSETrail
  | dated : List Char → NSETrail
deriving Repr, DecidableEq

/-- Match `\d{1,2}-\w{3,}-\d{4}` (the date alternative of the NSE row
regex, word month only). -/
def matchNseDateAt (cs : List Char) : Option Nat :=
  let tryLen := fun (dl : Nat) =>
    match takeDigitsExact cs dl with
    | none => none
    | some _ =>
        let r1 := cs.drop dl
        match r1 with
        | c1 :: r2 =>
            if c1 = '-' then
              let w := r2.takeWhile isWordCh
              if 3 ≤ w.length then
                let r3 := r2.drop w.length
                match r3 with
                | c2 :: r4 =>
                    if c2 = '-' then
                      match takeDigitsExact r4 4 with
                      | some _ => some (dl + 1 + w.length + 1 + 4)
                      | none => none
                    else none
                | [] => none
              else none
            else none
        | [] => none
  match tryLen 2 with
  | some r => some r
  | none => tryLen 1

/-- Match the row regex
`([\d,]+)\s+[\d,]+\s+[\d,]+\s+((?:\d{1,2}-\w{3,}-\d{4})|Free)` at the
head: three comma-digit runs separated by whitespace (all maximal —
the classes are disjoint, so the greedy runs never backtrack),
followed by a date or a case-insensitive `Free`.  Captures the first
run and the trailing token. -/
def matchNseRowAt (cs : List Char) : Option (Nat × (List Char × NSETrail)) :=
  let g1 := cs.takeWhile isDigitComma
  if g1.isEmpty then none
  else
    let r1 := cs.drop g1.length
    let s1 := r1.takeWhile isWsCh
    if s1.isEmpty then none
    else
      let r2 := r1.drop s1.length
      let g2 := r2.takeWhile isDigitComma
      if g2.isEmpty then none
      else
        let r3 := r2.drop g2.length
        let s2 := r3.takeWhile isWsCh
        if s2.isEmpty then none
        else
          let r4 := r3.drop s2.length
          let g3 := r4.takeWhile isDigitComma
          if g3.isEmpty then none
          else
            let r5 := r4.drop g3.length
            let s3 := r5.takeWhile isWsCh
            if s3.isEmpty then none
            else
              let r6 := r5.drop s3.length
              let base := g1.length + s1.length + g2.length + s2.length +
                g3.length + s3.length
              match matchNseDateAt r6 with
              | some dlen => some (base + dlen, (g1, NSETrail.dated (r6.take dlen)))
              | none =>
                  if startsWithCI (['f', 'r', 'e', 'e']) r6 then
                    some (base + 4, (g1, NSETrail.free))
                  else none

/-- Does `/Lock[\s-]*in[\s]*(?:up[\s]*to|details)/i` match at the
head?  The separator runs are maximal (forced, since the letters that
must follow are not separator characters). -/
def matchLockInAt (cs : List Char) : Bool :=
  if startsWithCI (['l', 'o', 'c', 'k']) cs then
    let r1 := cs.drop 4
    let sep := r1.takeWhile (fun c => isWsCh c ∨ c = '-')
    let r2 := r1.drop sep.length
    if startsWithCI (['i', 'n']) r2 then
      let r3 := r2.drop 2
      let ws := r3.takeWhile isWsCh
      let r4 := r3.drop ws.length
      (if startsWithCI (['u', 'p']) r4 then
        let r5 := r4.drop 2
        let ws2 := r5.takeWhile isWsCh
        startsWithCI (['t', 'o']) (r5.drop ws2.length)
      else false) ||
        startsWithCI (['d', 'e', 't', 'a', 'i', 'l', 's']) r4
    else false
  else false

/-- Is the character at the head a word character (`false` at the end
of the string)? -/
def headIsWord : List Char → Bool
  | [] => false
  | c :: _ => isWordCh c

/-- Does `/Annexure[\s-]*I?\b/i` match at the head?  The separator run
and the optional `I` backtrack against the word boundary. -/
def matchAnnexureAt (cs : List Char) : Bool :=
  if startsWithCI (['a', 'n', 'n', 'e', 'x', 'u', 'r', 'e']) cs then
    let r1 := cs.drop 8
    let sep := r1.takeWhile (fun c => isWsCh c ∨ c = '-')
    let tryAt := fun (s : Nat) =>
      let r2 := r1.drop s
      let withI :=
        match r2 with
        | c :: r3 => if c.toLower = 'i' then ¬ headIsWord r3 else false
        | [] => false
      let prevIsWord := s = 0
      let withoutI :=
        if prevIsWord then ¬ headIsWord r2
        else headIsWord r2
      withI || withoutI
    (List.range (sep.length + 1)).any (fun k => tryAt (sep.length - k))
  else false

/-- Word-boundary test for `\bFree\b` at the head given the previous
character. -/
def matchFreeWordAt (prev : Option Char) (cs : List Char) : Bool :=
  (match prev with
   | some c => ¬ isWordCh c
   | none => true) &&
    startsWithCI (['f', 'r', 'e', 'e']) cs &&
    ¬ headIsWord (cs.drop 4)

/-- Does the segment contain `\bFree\b` (case-insensitive)? -/
def hasFreeWord (cs : List Char) : Bool :=
  let rec go : Option Char → List Char → Bool
    | _, [] => false
    | prev, c :: rest => matchFreeWordAt prev (c :: rest) || go (some c) rest
  go none cs

/-- Split on newlines (`String.split("\n")`). -/
def splitOnNl : List Char → List (List Char)
  | [] => [[]]
  | c :: rest =>
      let r := splitOnNl rest
      if c = '\n' then [] :: r
      else
        match r with
        | s :: ss => (c :: s) :: ss
        | [] => [[c]]

/-- Maximal `[\d,]` runs of length at least 3 (`/[\d,]{3,}/g`),
fuelled scan. -/
def digitRunsGo : Nat → List Char → List (List Char)
  | 0, _ => []
  | _ + 1, [] => []
  | fuel + 1, c :: rest =>
      if isDigitComma c then
        let run := (c :: rest).takeWhile isDigitComma
        let tail := (c :: rest).drop run.length
        if 3 ≤ run.length then run :: digitRunsGo fuel tail else digitRunsGo fuel tail
      else digitRunsGo fuel rest

/-- Maximal `[\d,]` runs of length at least 3 in a segment. -/
def digitRuns (cs : List Char) : List (List Char) :=
  digitRunsGo cs.length cs

/-- First `(\d{1,2}-\w{3,}-\d{4})` match in a segment, as a token. -/
def firstNseDate : Nat → List Char → Option (List Char)
  | 0, _ => none
  | _ + 1, [] => none
  | fuel + 1, c :: rest =>
      match matchNseDateAt (c :: rest) with
      | some len => some ((c :: rest).take len)
      | none => firstNseDate fuel rest

/-- One row of the NSE row loop: rows with a non-positive share count
are skipped, otherwise the entry is appended and the running total
grows. -/
def nseRowStep (acc : List LockInEntry × Nat) (row : List Char × NSETrail) :
    List LockInEntry × Nat :=
  let shares := parseIndianNumber row.1
  if shares = 0 then acc
  else
    match row.2 with
    | NSETrail.free => (acc.1 ++ [⟨shares, false, none⟩], acc.2 + shares)
    | NSETrail.dated tok => (acc.1 ++ [⟨shares, true, parseBSEDate tok⟩], acc.2 + shares)

/-- One segment of the fallback line scan of `parseNSEFallback`
(circular-scraper.js 670-705). -/
def nseFallbackStep (acc : List LockInEntry × Nat) (seg : List Char) :
    List LockInEntry × Nat :=
  match digitRuns seg with
  | [] => acc
  | n0 :: _ =>
      let shares := parseIndianNumber n0
      if shares = 0 then acc
      else if hasFreeWord seg then (acc.1 ++ [⟨shares, false, none⟩], acc.2 + shares)
      else
        match firstNseDate seg.length seg with
        | some tok => (acc.1 ++ [⟨shares, true, parseBSEDate tok⟩], acc.2 + shares)
        | none => acc

/-- Embedding of `parseNSEFallback`: split the section into lines and
scan each for a leading digit run with a date or `Free`, extending the
entries found by the row regex. -/
def parseNSEFallback (sect : List Char) (es0 : List LockInEntry) (t0 : Nat) :
    List LockInEntry × Nat :=
  (splitOnNl sect).foldl nseFallbackStep (es0, t0)

/-- Embedding of `parseNSEFormat` (circular-scraper.js 621-665): find
the lock-in section, run the row regex over it, and fall back to the
line scan when fewer than two rows matched. -/
def parseNSEFormat (text : List Char) : List LockInEntry × Nat :=
  let annexureStart := searchIdx matchAnnexureAt text
  let lockInStart := searchIdx matchLockInAt text
  let startPos : Int := max (max annexureStart lockInStart) 0
  let sect := text.drop startPos.toNat
  let rows := scanAll matchNseRowAt sect
  let r := (rows.map Prod.snd).foldl nseRowStep ([], 0)
  if r.1.length < 2 then parseNSEFallback sect r.1 r.2 else r

/-! ## BSE reconciliation parser -/

/-- A digit-run token of the number scan: parsed value, raw digits
(commas stripped), character offset, and matched length. -/
structure NumTok where
  val : Nat
  rawStr : List Char
  index : Nat
  strLength : Nat
deriving Repr, DecidableEq

/-- Lookahead `(?![\d,])`. -/
def lookNotDigitComma : List Char → Bool
  | [] => true
  | c :: _ => ¬ isDigitComma c

/-- Match the comma-grouped alternative `\d{1,3}(?:,\d{2,3})+` with
its trailing lookahead; the group sizes backtrack greedily. -/
def matchGroupedTail : Nat → List Char → Option Nat
  | 0, _ => none
  | fuel + 1, cs =>
      match cs with
      | ',' :: r2 =>
          let tryG := fun (gl : Nat) =>
            match takeDigitsExact r2 gl with
            | none => none
            | some _ =>
                let after := r2.drop gl
                match matchGroupedTail fuel after with
                | some n => some (1 + gl + n)
                | none => if lookNotDigitComma after then some (1 + gl) else none
          match tryG 3 with
          | some r => some r
          | none => tryG 2
      | _ => none

/-- Match the number regex
`(?<![\d,])(\d{1,3}(?:,\d{2,3})+|\d+)(?![\d,])` at the head (the
lookbehind is checked by the caller).  Returns the matched length and
text. -/
def matchNumTokenAt (cs : List Char) : Option (Nat × List Char) :=
  let grouped :=
    let tryLen := fun (dl : Nat) =>
      match takeDigitsExact cs dl with
      | none => none
      | some _ =>
          match matchGroupedTail cs.length (cs.drop dl) with
          | some n => some (dl + n)
          | none => none
    match tryLen 3 with
    | some r => some r
    | none =>
        match tryLen 2 with
        | some r => some r
        | none => tryLen 1
  match grouped with
  | some len => some (len, cs.take len)
  | none =>
      let run := cs.takeWhile Char.isDigit
      if run.isEmpty then none
      else if lookNotDigitComma (cs.drop run.length) then some (run.length, run)
      else none

/-- Number scan of `parseUniversalBSEFormat` (circular-scraper.js
725-733): collect every number token with its offset, skipping values
of zero, respecting the lookbehind via the previous character. -/
def numScanGo : Nat → Nat → Option Char → List Char → List NumTok
  | 0, _, _, _ => []
  | _ + 1, _, _, [] => []
  | fuel + 1, idx, prev, c :: rest =>
      let blocked :=
        match prev with
        | some p => isDigitComma p
        | none => false
      if blocked then numScanGo fuel (idx + 1) (some c) rest
      else
        match matchNumTokenAt (c :: rest) with
        | some (len, valStr) =>
            let rawStr := valStr.filter (fun ch => ch ≠ ',')
            let v := digitsVal rawStr
            let tok : NumTok := ⟨v, rawStr, idx, len⟩
            let nextPrev := valStr.getLast?
            let tail := (c :: rest).drop (max len 1)
            if 0 < v then
              tok :: numScanGo fuel (idx + max len 1) nextPrev tail
            else numScanGo fuel (idx + max len 1) nextPrev tail
        | none => numScanGo fuel (idx + 1) (some c) rest

/-- All number tokens of a masked text. -/
def numTokens (cs : List Char) : List NumTok :=
  numScanGo cs.length 0 none cs

/-- Leading-zero rejection of the split search: a part of length
greater than one must not start with `0`. -/
def noLeadZeroOk (s : List Char) : Bool :=
  s.length ≤ 1 || s.head? ≠ some '0'

/-- The list `[a, a+1, ..., b-1]`. -/
def rangeList (a b : Nat) : List Nat :=
  (List.range (b - a)).map (fun k => a + k)

/-- Embedding of `findMathTripletInString` (circular-scraper.js
741-758): try every split of the digit string into three parts `A`,
`B`, `C` without leading zeros, in lexicographic split order, and
return the first `A` with `A = C - B + 1` and `A > 100`. -/
def findMathTripletInString (str : List Char) : Option Nat :=
  let len := str.length
  (rangeList 1 (len - 1)).findSome? (fun i =>
    (rangeList (i + 1) len).findSome? (fun j =>
      let aStr := str.take i
      let bStr := (str.drop i).take (j - i)
      let cStr := str.drop j
      if noLeadZeroOk aStr ∧ noLeadZeroOk bStr ∧ noLeadZeroOk cStr then
        let va := digitsVal aStr
        let vb := digitsVal bStr
        let vc := digitsVal cStr
        if (va : Int) = (vc : Int) - (vb : Int) + 1 ∧ 100 < va then some va else none
      else none))

/-- Embedding of `findMathPairInString`: does some split of the digit
string into `B`, `C` without leading zeros satisfy `A = C - B + 1`? -/
def findMathPairInString (str : List Char) (a : Nat) : Bool :=
  (rangeList 1 str.length).any (fun i =>
    let bStr := str.take i
    let cStr := str.drop i
    noLeadZeroOk bStr && noLeadZeroOk cStr &&
      decide ((a : Int) = (digitsVal cStr : Int) - (digitsVal bStr : Int) + 1))

/-- Reconciled entry at share count `a`: locked exactly when a date
lies in the window after `pos`. -/
def mkBseEntry (a : Nat) (text : List Char) (pos : Nat) : LockInEntry :=
  let date := findDateNear text pos 120
  ⟨a, date.isSome, date⟩

/-- Rule 1 of the reconciliation loop: a completely glued triplet
inside a raw string of at least 8 digits. -/
def bseRule1 (n : NumTok) (text : List Char) (used : List Nat) (i : Nat) :
    Option (LockInEntry × List Nat) :=
  if 8 ≤ n.rawStr.length then
    match findMathTripletInString n.rawStr with
    | some a => some (mkBseEntry a text (n.index + n.strLength), used ++ [i])
    | none => none
  else none

/-- One split attempt of rule 1.5 (`A` and `B` glued in token `i`,
`C` is token `j`). -/
def bseRule15Try (n nj : NumTok) (text : List Char) (used : List Nat) (i j split : Nat) :
    Option (LockInEntry × List Nat) :=
  let aStr := n.rawStr.take split
  let bStr := n.rawStr.drop split
  if noLeadZeroOk aStr ∧ noLeadZeroOk bStr then
    let va := digitsVal aStr
    let vb := digitsVal bStr
    if (va : Int) = (nj.val : Int) - (vb : Int) + 1 ∧ 100 < va then
      some (mkBseEntry va text (nj.index + nj.strLength), used ++ [i, j])
    else none
  else none

/-- Rule 1.5: look for `C` among the next two unused tokens and try
every split of the current raw string. -/
def bseRule15 (nums : List NumTok) (n : NumTok) (text : List Char) (used : List Nat)
    (i : Nat) : Option (LockInEntry × List Nat) :=
  if 2 ≤ n.rawStr.length then
    (rangeList (i + 1) (min (i + 3) nums.length)).findSome? (fun j =>
      if j ∈ used then none
      else
        match nums.get? j with
        | none => none
        | some nj => (rangeList 1 n.rawStr.length).findSome? (bseRule15Try n nj text used i j))
  else none

/-- Inner `k` search of rule 2: a plain triplet `A = C - B + 1` with
`B` at `j` and `C` at `k`. -/
def bseRule2K (nums : List NumTok) (n nj : NumTok) (text : List Char) (used : List Nat)
    (i j k : Nat) : Option (LockInEntry × List Nat) :=
  if k ∈ used then none
  else
    match nums.get? k with
    | none => none
    | some nk =>
        if (n.val : Int) = (nk.val : Int) - (nj.val : Int) + 1 then
          some (mkBseEntry n.val text (nk.index + nk.strLength), used ++ [i, j, k])
        else none

/-- Body of the rule-2 `j` loop: a glued `B`+`C` pair at `j`, the
degenerate `A = B` / `A = B - 1` rule, or the inner triplet search. -/
def bseRule2J (nums : List NumTok) (n : NumTok) (text : List Char) (used : List Nat)
    (i j : Nat) : Option (LockInEntry × List Nat) :=
  if j ∈ used then none
  else
    match nums.get? j with
    | none => none
    | some nj =>
        if 5 ≤ nj.rawStr.length ∧ findMathPairInString nj.rawStr n.val then
          some (mkBseEntry n.val text (nj.index + nj.strLength), used ++ [i, j])
        else if (n.val : Int) = (nj.val : Int) ∨ (n.val : Int) = (nj.val : Int) - 1 then
          some (mkBseEntry n.val text (nj.index + nj.strLength), used ++ [i, j])
        else
          (rangeList (j + 1) (min (j + 10) nums.length)).findSome?
            (bseRule2K nums n nj text used i j)

/-- One iteration of the main reconciliation loop of
`parseUniversalBSEFormat` (circular-scraper.js 774-872) at index `i`:
rule 1 (fully glued triplet), rule 1.5 (`A` and `B` glued), then for
`A ≥ 1000` the rule-2 lookahead.  Returns the produced entry and the
updated used-index set, or `none` when the token yields nothing. -/
def bseStep (nums : List NumTok) (text : List Char) (i : Nat) (used : List Nat) :
    Option (LockInEntry × List Nat) :=
  if i ∈ used then none
  else
    match nums.get? i with
    | none => none
    | some n =>
        match bseRule1 n text used i with
        | some res => some res
        | none =>
            match bseRule15 nums n text used i with
            | some res => some res
            | none =>
                if n.val < 1000 then none
                else
                  (rangeList (i + 1) (min (i + 15) nums.length)).findSome?
                    (bseRule2J nums n text used i)

/-- The main reconciliation loop over all token indices, accumulating
entries and the running share total exactly as the JavaScript loop
does (`totalSharesParsed += A` beside every push). -/
def bseLoopGo (nums : List NumTok) (text : List Char) :
    Nat → Nat → List Nat → List LockInEntry × Nat
  | 0, _, _ => ([], 0)
  | fuel + 1, i, used =>
      if nums.length ≤ i then ([], 0)
      else
        match bseStep nums text i used with
        | some (e, used2) =>
            let r := bseLoopGo nums text fuel (i + 1) used2
            (e :: r.1, e.shares + r.2)
        | none => bseLoopGo nums text fuel (i + 1) used

/-- Run of the main reconciliation loop. -/
def bseLoopRun (nums : List NumTok) (text : List Char) : List LockInEntry × Nat :=
  bseLoopGo nums text nums.length 0 []

/-- Nearest preceding number token of the proximity fallback: the
token with value at least 1000 and fewer than 10 raw digits whose end
is closest before the date, starting from distance bound 1000. -/
def closestNumBefore (nums : List NumTok) (dIdx : Nat) : Nat :=
  (nums.foldl
    (fun (best : Nat × Int) n =>
      if n.val < 1000 ∨ 10 ≤ n.rawStr.length then best
      else
        let diff : Int := (dIdx : Int) - ((n.index : Int) + (n.strLength : Int))
        if 0 < diff ∧ diff < best.2 then (n.val, diff) else best)
    (0, 1000)).1

/-- One date of the proximity fallback: parse it and append the
nearest preceding number token as a locked entry when one exists. -/
def proximityStep (nums : List NumTok) (acc : List LockInEntry × Nat)
    (p : Nat × List Char) : List LockInEntry × Nat :=
  match parseBSEDate p.2 with
  | none => acc
  | some pd =>
      let closest := closestNumBefore nums p.1
      if 0 < closest then (acc.1 ++ [⟨closest, true, some pd⟩], acc.2 + closest)
      else acc

/-- Proximity fallback of `parseUniversalBSEFormat` (circular-scraper.js
876-900): for every date in the unmasked text, take the nearest
preceding number token as a locked entry. -/
def proximityRun (nums : List NumTok) (text : List Char) : List LockInEntry × Nat :=
  (scanDates text).foldl (proximityStep nums) ([], 0)

/-- Match `([A-Z][a-z]{2,8})\s+(\d{1,2}),\s+(\d{4})` at the head and
produce the `$2-$1-$3` rewrite (the date normalisation at the top of
`parseUniversalBSEFormat`). -/
def matchMonthFirstAt (cs : List Char) : Option (Nat × List Char) :=
  match cs with
  | c0 :: r1 =>
      if c0.isUpper then
        let lowers := r1.takeWhile (fun c => c.isLower)
        if 2 ≤ lowers.length ∧ lowers.length ≤ 8 then
          let r2 := r1.drop lowers.length
          let ws1 := r2.takeWhile isWsCh
          if ws1.isEmpty then none
          else
            let r3 := r2.drop ws1.length
            let tryDay := fun (dl : Nat) =>
              match takeDigitsExact r3 dl with
              | none => none
              | some ds =>
                  match r3.drop dl with
                  | ',' :: r4 =>
                      let ws2 := r4.takeWhile isWsCh
                      if ws2.isEmpty then none
                      else
                        match takeDigitsExact (r4.drop ws2.length) 4 with
                        | some ys =>
                            some
                              (1 + lowers.length + ws1.length + dl + 1 + ws2.length + 4,
                                ds ++ ('-' :: (c0 :: lowers)) ++ ('-' :: ys))
                        | none => none
                  | _ => none
            match tryDay 2 with
            | some r => some r
            | none => tryDay 1
        else none
      else none
  | [] => none

/-- Date masking for the number scan: each date match is replaced by
an equal number of spaces, so token offsets agree between the masked
and unmasked texts. -/
def maskDates (cs : List Char) : List Char :=
  replaceAll
    (fun s =>
      match matchDateMaskAt s with
      | some (len, _) => some (len, List.replicate len ' ')
      | none => none)
    cs

/-- Entries and running total of `parseUniversalBSEFormat`
(circular-scraper.js 713-904): normalise month-first dates, mask dates
for the number scan, run the reconciliation loop, and fall back to
proximity matching when it produced nothing. -/
def bseEntriesOf (norm : List Char) : List LockInEntry × Nat :=
  let text := replaceAll matchMonthFirstAt norm
  let textForNums := maskDates text
  let nums := numTokens textForNums
  let r := bseLoopRun nums text
  if r.1.isEmpty then
    let r2 := proximityRun nums text
    (r.1 ++ r2.1, r.2 + r2.2)
  else r

/-! ## Top-level extraction -/

/-- Whitespace run containing at least one newline (the separator
`-\s*\n\s*` of the line-broken date joins). -/
def wsRunWithNl (cs : List Char) : Option Nat :=
  let run := cs.takeWhile isWsCh
  if run.contains '\n' then some run.length else none

/-- Match `(\d{1,2})-\s*\n\s*(\w{3,})-\s*\n?\s*(\d{4})` at the head
and produce the `$1-$2-$3` rewrite. -/
def matchJoin1At (cs : List Char) : Option (Nat × List Char) :=
  let tryLen := fun (dl : Nat) =>
    match takeDigitsExact cs dl with
    | none => none
    | some ds =>
        match cs.drop dl with
        | '-' :: r2 =>
            match wsRunWithNl r2 with
            | none => none
            | some wl =>
                let r3 := r2.drop wl
                let w := r3.takeWhile isWordCh
                if 3 ≤ w.length then
                  match r3.drop w.length with
                  | '-' :: r4 =>
                      let ws2 := r4.takeWhile isWsCh
                      match takeDigitsExact (r4.drop ws2.length) 4 with
                      | some ys =>
                          some
                            (dl + 1 + wl + w.length + 1 + ws2.length + 4,
                              ds ++ ('-' :: w) ++ ('-' :: ys))
                      | none => none
                  | _ => none
                else none
        | _ => none
  match tryLen 2 with
  | some r => some r
  | none => tryLen 1

/-- Match `(\d{1,2})-\s*\n\s*(\w{3,})-(\d{4})` at the head and produce
the `$1-$2-$3` rewrite. -/
def matchJoin2At (cs : List Char) : Option (Nat × List Char) :=
  let tryLen := fun (dl : Nat) =>
    match takeDigitsExact cs dl with
    | none => none
    | some ds =>
        match cs.drop dl with
        | '-' :: r2 =>
            match wsRunWithNl r2 with
            | none => none
            | some wl =>
                let r3 := r2.drop wl
                let w := r3.takeWhile isWordCh
                if 3 ≤ w.length then
                  match r3.drop w.length with
                  | '-' :: r4 =>
                      match takeDigitsExact r4 4 with
                      | some ys =>
                          some (dl + 1 + wl + w.length + 1 + 4, ds ++ ('-' :: w) ++ ('-' :: ys))
                      | none => none
                  | _ => none
                else none
        | _ => none
  match tryLen 2 with
  | some r => some r
  | none => tryLen 1

/-- Collapse each whitespace run to a single space (`replace(/\s+/g, " ")`). -/
def collapseWs (cs : List Char) : List Char :=
  replaceAll
    (fun s =>
      let run := s.takeWhile isWsCh
      if run.isEmpty then none else some (run.length, [' ']))
    cs

/-- Entries and total of `parseLockInData` (circular-scraper.js
590-612): join line-broken dates, detect the format on the
whitespace-collapsed text, and run the NSE structured parser or the
BSE reconciliation parser. -/
def parseLockInEntriesOf (raw : List Char) : List LockInEntry × Nat :=
  let t1 := replaceAll matchJoin1At raw
  let t2 := replaceAll matchJoin2At t1
  let norm := collapseWs t2
  if containsSeq norm ("Lock in up to".data) || containsSeq norm ("Lock in upto".data)
  then parseNSEFormat norm
  else bseEntriesOf t2

/-- Embedding of `parseLockInData`: extract entries and hand them with
the running total to `buildUnlockEvents`. -/
def parseLockInData (raw : List Char) : ParseResult :=
  let r := parseLockInEntriesOf raw
  buildUnlockEvents r.1 r.2

/-- Invariant carried by every parser path: the running total is the
sum of the collected entries, and every entry has positive shares. -/
def EntryInv (r : List LockInEntry × Nat) : Prop :=
  r.2 = sumEntryShares r.1 ∧ ∀ e ∈ r.1, 0 < e.shares

/-! ## Lemmas about the aggregator -/

lemma notLockedGo_eq (es : List LockInEntry) :
    ∀ acc, notLockedGo acc es = acc + freeSum es := by
  induction es with
  | nil => intro acc; simp [notLockedGo, freeSum]
  | cons e es ih =>
      intro acc
      cases hb : e.isLocked
      · simp [notLockedGo, freeSum, hb, ih]
        omega
      · simp [notLockedGo, freeSum, hb, ih]

lemma notLockedSharesOf_eq (es : List LockInEntry) :
    notLockedSharesOf es = freeSum es := by
  simp [notLockedSharesOf, notLockedGo_eq]

lemma lookupD_insertAdd (m : List (Int × Nat)) (k : Int) (v : Nat) (q : Int) :
    lookupD (insertAdd m k v) q = lookupD m q + (if q = k then v else 0) := by
  induction m with
  | nil =>
      by_cases h : k = q
      · subst h; simp [insertAdd, lookupD]
      · simp [insertAdd, lookupD, h, Ne.symm h]
  | cons p rest ih =>
      obtain ⟨k0, v0⟩ := p
      by_cases h1 : k0 = k
      · subst h1
        by_cases h2 : k0 = q
        · subst h2; simp [insertAdd, lookupD]
        · simp [insertAdd, lookupD, h2, Ne.symm h2]
      · by_cases h2 : k0 = q
        · subst h2
          simp [insertAdd, lookupD, h1, Ne.symm h1]
        · simp [insertAdd, lookupD, h1, h2, ih]

lemma mem_keysOf_insertAdd (m : List (Int × Nat)) (k : Int) (v : Nat) (q : Int) :
    q ∈ keysOf (insertAdd m k v) ↔ q ∈ keysOf m ∨ q = k := by
  induction m with
  | nil => simp [insertAdd, keysOf]
  | cons p rest ih =>
      obtain ⟨k0, v0⟩ := p
      by_cases h1 : k0 = k
      · subst h1; simp [insertAdd, keysOf]; tauto
      · simp [insertAdd, keysOf, h1] at ih ⊢; tauto

lemma nodup_keysOf_insertAdd (m : List (Int × Nat)) (k : Int) (v : Nat)
    (h : (keysOf m).Nodup) : (keysOf (insertAdd m k v)).Nodup := by
  induction m with
  | nil => simp [insertAdd, keysOf]
  | cons p rest ih =>
      obtain ⟨k0, v0⟩ := p
      have h2 : k0 ∉ keysOf rest ∧ (keysOf rest).Nodup := by
        simpa [keysOf] using h
      by_cases h1 : k0 = k
      · subst h1
        simp only [insertAdd, if_pos rfl]
        simpa [keysOf] using h
      · have htail := ih h2.2
        have hmem : k0 ∉ keysOf (insertAdd rest k v) := by
          intro hc
          rcases (mem_keysOf_insertAdd rest k v k0).1 hc with hc2 | hc2
          · exact h2.1 hc2
          · exact h1 hc2
        simp only [insertAdd, if_neg h1, keysOf, List.map_cons, List.nodup_cons]
        exact ⟨fun hc => hmem (by simpa [keysOf] using hc), by simpa [keysOf] using htail⟩

lemma valuesSum_insertAdd (m : List (Int × Nat)) (k : Int) (v : Nat) :
    valuesSum (insertAdd m k v) = valuesSum m + v := by
  induction m with
  | nil => simp [insertAdd, valuesSum]
  | cons p rest ih =>
      obtain ⟨k0, v0⟩ := p
      simp [valuesSum] at ih
      by_cases h1 : k0 = k <;> simp [insertAdd, valuesSum, h1, ih] <;> omega

lemma lookupD_eq_of_mem (m : List (Int × Nat)) (k : Int) (v : Nat)
    (hm : (k, v) ∈ m) (hn : (keysOf m).Nodup) : lookupD m k = v := by
  induction m with
  | nil => simp at hm
  | cons p rest ih =>
      obtain ⟨k0, v0⟩ := p
      have hn2 : k0 ∉ keysOf rest ∧ (keysOf rest).Nodup := by
        simpa [keysOf] using hn
      rcases List.mem_cons.1 hm with h | h
      · cases h; simp [lookupD]
      · by_cases h1 : k0 = k
        · subst h1
          exact absurd (List.mem_map_of_mem Prod.fst h) hn2.1
        · simp only [lookupD, if_neg h1]
          exact ih h hn2.2

lemma mem_of_key_mem (m : List (Int × Nat)) (k : Int)
    (h : k ∈ keysOf m) : (k, lookupD m k) ∈ m := by
  induction m with
  | nil => simp [keysOf] at h
  | cons p rest ih =>
      obtain ⟨k0, v0⟩ := p
      by_cases h1 : k0 = k
      · subst h1; simp [lookupD]
      · simp [keysOf, h1] at h
        rcases h with h | h
        · exact absurd h.symm h1
        · simp only [lookupD, if_neg h1, List.mem_cons]
          right
          exact ih (by simpa [keysOf] using h)

lemma mapStep_of_locked (m : List (Int × Nat)) (e : LockInEntry) (d : Int)
    (hb : e.isLocked = true) (hd : e.unlockDate = some d) :
    mapStep m e = insertAdd m d e.shares := by
  simp [mapStep, hb, hd]

lemma mapStep_of_free (m : List (Int × Nat)) (e : LockInEntry)
    (hb : e.isLocked = false) : mapStep m e = m := by
  simp [mapStep, hb]

lemma mapStep_of_dateless (m : List (Int × Nat)) (e : LockInEntry)
    (hd : e.unlockDate = none) : mapStep m e = m := by
  cases hb : e.isLocked <;> simp [mapStep, hb, hd]

lemma lookupD_mapStep (m : List (Int × Nat)) (e : LockInEntry) (q : Int) :
    lookupD (mapStep m e) q =
      lookupD m q + (if e.isLocked = true ∧ e.unlockDate = some q then e.shares else 0) := by
  cases hb : e.isLocked
  · simp [mapStep_of_free m e hb, hb]
  · cases hd : e.unlockDate with
    | none => simp [mapStep_of_dateless m e hd, hd]
    | some d =>
        rw [mapStep_of_locked m e d hb hd, lookupD_insertAdd]
        by_cases h2 : q = d
        · subst h2; simp
        · have h4 : ¬ d = q := fun h => h2 h.symm
          simp [h2, h4]

lemma mem_keysOf_mapStep (m : List (Int × Nat)) (e : LockInEntry) (q : Int) :
    q ∈ keysOf (mapStep m e) ↔
      q ∈ keysOf m ∨ (e.isLocked = true ∧ e.unlockDate = some q) := by
  cases hb : e.isLocked
  · simp [mapStep_of_free m e hb, hb]
  · cases hd : e.unlockDate with
    | none => simp [mapStep_of_dateless m e hd, hd]
    | some d =>
        rw [mapStep_of_locked m e d hb hd, mem_keysOf_insertAdd]
        constructor
        · rintro (h | h)
          · exact Or.inl h
          · exact Or.inr ⟨rfl, by rw [h]⟩
        · rintro (h | ⟨_, h⟩)
          · exact Or.inl h
          · exact Or.inr (by injection h with h4; exact h4.symm)

lemma nodup_keysOf_mapStep (m : List (Int × Nat)) (e : LockInEntry)
    (hm : (keysOf m).Nodup) : (keysOf (mapStep m e)).Nodup := by
  cases hb : e.isLocked
  · simpa [mapStep_of_free m e hb] using hm
  · cases hd : e.unlockDate with
    | none => simpa [mapStep_of_dateless m e hd] using hm
    | some d =>
        rw [mapStep_of_locked m e d hb hd]
        exact nodup_keysOf_insertAdd m d e.shares hm

lemma valuesSum_mapStep (m : List (Int × Nat)) (e : LockInEntry) :
    valuesSum (mapStep m e) =
      valuesSum m + (if e.isLocked = true ∧ e.unlockDate ≠ none then e.shares else 0) := by
  cases hb : e.isLocked
  · simp [mapStep_of_free m e hb, hb]
  · cases hd : e.unlockDate with
    | none => simp [mapStep_of_dateless m e hd, hd]
    | some d =>
        rw [mapStep_of_locked m e d hb hd, valuesSum_insertAdd]
        simp

lemma lookupD_unlockMapGo (es : List LockInEntry) :
    ∀ (m : List (Int × Nat)) (q : Int),
      lookupD (unlockMapGo m es) q = lookupD m q + scheduledSumOn es q := by
  induction es with
  | nil => intro m q; simp [unlockMapGo, scheduledSumOn]
  | cons e es ih =>
      intro m q
      simp only [unlockMapGo, scheduledSumOn]
      rw [ih, lookupD_mapStep]
      omega

lemma mem_keysOf_unlockMapGo (es : List LockInEntry) :
    ∀ (m : List (Int × Nat)) (q : Int),
      q ∈ keysOf (unlockMapGo m es) ↔
        q ∈ keysOf m ∨ ∃ e ∈ es, e.isLocked = true ∧ e.unlockDate = some q := by
  induction es with
  | nil => intro m q; simp [unlockMapGo]
  | cons e es ih =>
      intro m q
      simp only [unlockMapGo]
      rw [ih, mem_keysOf_mapStep]
      simp only [List.mem_cons]
      constructor
      · rintro ((h | h) | h)
        · exact Or.inl h
        · exact Or.inr ⟨e, Or.inl rfl, h⟩
        · obtain ⟨e2, he2, h2⟩ := h
          exact Or.inr ⟨e2, Or.inr he2, h2⟩
      · rintro (h | ⟨e2, he2 | he2, h2⟩)
        · exact Or.inl (Or.inl h)
        · subst he2; exact Or.inl (Or.inr h2)
        · exact Or.inr ⟨e2, he2, h2⟩

lemma nodup_keysOf_unlockMapGo (es : List LockInEntry) :
    ∀ (m : List (Int × Nat)), (keysOf m).Nodup → (keysOf (unlockMapGo m es)).Nodup := by
  induction es with
  | nil => intro m hm; simpa [unlockMapGo] using hm
  | cons e es ih =>
      intro m hm
      simp only [unlockMapGo]
      exact ih (mapStep m e) (nodup_keysOf_mapStep m e hm)

lemma valuesSum_unlockMapGo (es : List LockInEntry) :
    ∀ (m : List (Int × Nat)),
      valuesSum (unlockMapGo m es) = valuesSum m + scheduledSum es := by
  induction es with
  | nil => intro m; simp [unlockMapGo, scheduledSum]
  | cons e es ih =>
      intro m
      simp only [unlockMapGo, scheduledSum]
      rw [ih, valuesSum_mapStep]
      omega

lemma insertByKey_perm (p : Int × Nat) (l : List (Int × Nat)) :
    List.Perm (insertByKey p l) (p :: l) := by
  induction l with
  | nil => simp [insertByKey]
  | cons q rest ih =>
      by_cases h : p.1 ≤ q.1
      · simp [insertByKey, h]
      · simp only [insertByKey, if_neg h]
        exact (ih.cons q).trans (List.Perm.swap p q rest)

lemma sortByKey_perm (l : List (Int × Nat)) : List.Perm (sortByKey l) l := by
  induction l with
  | nil => simp [sortByKey]
  | cons p rest ih =>
      exact (insertByKey_perm p (sortByKey rest)).trans (ih.cons p)

lemma pairwise_insertByKey (p : Int × Nat) (l : List (Int × Nat))
    (h : l.Pairwise KeyLe) : (insertByKey p l).Pairwise KeyLe := by
  induction l with
  | nil => simp [insertByKey, List.Pairwise]
  | cons q rest ih =>
      rw [List.pairwise_cons] at h
      by_cases hle : p.1 ≤ q.1
      · simp only [insertByKey, if_pos hle]
        refine List.Pairwise.cons ?_ (List.Pairwise.cons h.1 h.2)
        intro x hx
        rcases List.mem_cons.1 hx with h2 | h2
        · subst h2; exact hle
        · exact le_trans hle (h.1 x h2)
      · simp only [insertByKey, if_neg hle]
        refine List.Pairwise.cons ?_ (ih h.2)
        intro x hx
        rcases List.mem_cons.1 (((insertByKey_perm p rest).mem_iff).1 hx) with h2 | h2
        · subst h2; exact le_of_not_le hle
        · exact h.1 x h2

lemma pairwise_sortByKey (l : List (Int × Nat)) : (sortByKey l).Pairwise KeyLe := by
  induction l with
  | nil => simp [sortByKey, List.Pairwise]
  | cons p rest ih => exact pairwise_insertByKey p (sortByKey rest) ih

lemma pairwise_lt_of_le_nodup (l : List (Int × Nat))
    (h1 : l.Pairwise KeyLe) (h2 : (keysOf l).Nodup) :
    l.Pairwise (fun a b => a.1 < b.1) := by
  have h4 : (l.map Prod.fst).Pairwise (fun a b : Int => a ≠ b) := h2
  have h3 : l.Pairwise (fun a b : Int × Nat => a.1 ≠ b.1) := (List.pairwise_map).1 h4
  exact (h1.and h3).imp (fun h => lt_of_le_of_ne h.1 h.2)

lemma nodup_keysOf_unlockMapOf (entries : List LockInEntry) :
    (keysOf (unlockMapOf entries)).Nodup := by
  exact nodup_keysOf_unlockMapGo entries [] (by simp [keysOf])

lemma lookupD_unlockMapOf (entries : List LockInEntry) (q : Int) :
    lookupD (unlockMapOf entries) q = scheduledSumOn entries q := by
  have := lookupD_unlockMapGo entries [] q
  simpa [unlockMapOf, lookupD] using this

lemma mem_keysOf_unlockMapOf (entries : List LockInEntry) (q : Int) :
    q ∈ keysOf (unlockMapOf entries) ↔
      ∃ e ∈ entries, e.isLocked = true ∧ e.unlockDate = some q := by
  have := mem_keysOf_unlockMapGo entries [] q
  simpa [unlockMapOf, keysOf] using this

lemma valuesSum_unlockMapOf (entries : List LockInEntry) :
    valuesSum (unlockMapOf entries) = scheduledSum entries := by
  have := valuesSum_unlockMapGo entries []
  simpa [unlockMapOf, valuesSum] using this

lemma buildUnlockEvents_eq (entries : List LockInEntry) (total : Nat) :
    buildUnlockEvents entries total =
      { totalShares := total,
        unlockEvents :=
          (if 0 < freeSum entries then [bucketEvent entries total] else []) ++
            datedEventsOf entries total } := by
  simp only [buildUnlockEvents, bucketEvent, datedEventsOf, notLockedSharesOf_eq]
  split <;> simp

lemma freeSum_pos : ∀ (es : List LockInEntry),
    (∀ e ∈ es, 0 < e.shares) → (∃ e ∈ es, e.isLocked = false) → 0 < freeSum es := by
  intro es
  induction es with
  | nil => intro _ h; simp at h
  | cons f fs ih =>
      intro hpos hfree
      obtain ⟨e, he, hb⟩ := hfree
      rcases List.mem_cons.1 he with h | h
      · subst h
        have h1 := hpos e (List.mem_cons_self e fs)
        simp only [freeSum, if_pos hb]
        omega
      · have h2 := ih (fun x hx => hpos x (List.mem_cons_of_mem f hx)) ⟨e, h, hb⟩
        simp only [freeSum]
        omega

lemma freeSum_eq_zero : ∀ (es : List LockInEntry),
    (¬ ∃ e ∈ es, e.isLocked = false) → freeSum es = 0 := by
  intro es
  induction es with
  | nil => intro _; simp [freeSum]
  | cons f fs ih =>
      intro h
      have hf : ¬ f.isLocked = false := fun hc => h ⟨f, List.mem_cons_self f fs, hc⟩
      have htail : ¬ ∃ e ∈ fs, e.isLocked = false := by
        rintro ⟨e, he, hb⟩
        exact h ⟨e, List.mem_cons_of_mem f he, hb⟩
      simp only [freeSum, if_neg hf, ih htail]

lemma map_shares_datedEventsOf (entries : List LockInEntry) (total : Nat) :
    (datedEventsOf entries total).map UnlockEvent.shares =
      (sortByKey (unlockMapOf entries)).map Prod.snd := by
  rw [datedEventsOf, List.map_map]
  rfl

lemma sumShares_buildUnlockEvents (entries : List LockInEntry) (total : Nat) :
    sumShares (buildUnlockEvents entries total).unlockEvents =
      freeSum entries + scheduledSum entries := by
  rw [buildUnlockEvents_eq]
  have hdated : ((datedEventsOf entries total).map UnlockEvent.shares).sum =
      scheduledSum entries := by
    rw [map_shares_datedEventsOf]
    have h3 := ((sortByKey_perm (unlockMapOf entries)).map Prod.snd).sum_eq
    calc ((sortByKey (unlockMapOf entries)).map Prod.snd).sum
        = ((unlockMapOf entries).map Prod.snd).sum := h3
      _ = scheduledSum entries := valuesSum_unlockMapOf entries
  by_cases hf : 0 < freeSum entries
  · simp [sumShares, hf, bucketEvent, hdated]
  · simp [sumShares, hf, hdated]
    omega

lemma contributingSum_eq (es : List LockInEntry) :
    contributingSum es = freeSum es + scheduledSum es := by
  induction es with
  | nil => simp [contributingSum, freeSum, scheduledSum]
  | cons e es ih =>
      simp only [contributingSum, freeSum, scheduledSum, ih]
      cases hb : e.isLocked
      · cases hd : e.unlockDate <;> (simp; try omega)
      · cases hd : e.unlockDate <;> (simp; try omega)

lemma sumEntryShares_partition (es : List LockInEntry) :
    sumEntryShares es = freeSum es + scheduledSum es + droppedSum es := by
  induction es with
  | nil => simp [sumEntryShares, freeSum, scheduledSum, droppedSum]
  | cons e es ih =>
      simp only [sumEntryShares, List.map_cons, List.sum_cons, freeSum, scheduledSum,
        droppedSum]
      simp only [sumEntryShares] at ih
      cases hb : e.isLocked
      · cases hd : e.unlockDate <;> (simp; try omega)
      · cases hd : e.unlockDate <;> (simp; try omega)

lemma droppedSum_pos_iff (es : List LockInEntry) (hpos : ∀ e ∈ es, 0 < e.shares) :
    0 < droppedSum es ↔ ∃ e ∈ es, e.isLocked = true ∧ e.unlockDate = none := by
  induction es with
  | nil => simp [droppedSum]
  | cons e es ih =>
      have ih2 := ih (fun x hx => hpos x (List.mem_cons_of_mem e hx))
      by_cases hc : e.isLocked = true ∧ e.unlockDate = none
      · simp only [droppedSum, if_pos hc]
        constructor
        · intro _; exact ⟨e, List.mem_cons_self e es, hc⟩
        · intro _
          have := hpos e (List.mem_cons_self e es)
          omega
      · simp only [droppedSum, if_neg hc, Nat.zero_add]
        rw [ih2]
        constructor
        · rintro ⟨x, hx, h2⟩
          exact ⟨x, List.mem_cons_of_mem e hx, h2⟩
        · rintro ⟨x, hx, h2⟩
          rcases List.mem_cons.1 hx with h3 | h3
          · subst h3; exact absurd h2 hc
          · exact ⟨x, h3, h2⟩

lemma pct10_of_mem_dated (entries : List LockInEntry) (total : Nat) (ev : UnlockEvent)
    (h : ev ∈ datedEventsOf entries total) : ev.pct10 = pct10 total ev.shares := by
  rw [datedEventsOf] at h
  obtain ⟨p, _, h2⟩ := List.mem_map.1 h
  rw [← h2]

lemma pct10_of_mem (entries : List LockInEntry) (total : Nat) (ev : UnlockEvent)
    (h : ev ∈ (buildUnlockEvents entries total).unlockEvents) :
    ev.pct10 = pct10 total ev.shares := by
  rw [buildUnlockEvents_eq] at h
  simp only [List.mem_append] at h
  rcases h with h | h
  · by_cases hf : 0 < freeSum entries
    · rw [if_pos hf] at h
      simp only [List.mem_singleton] at h
      subst h
      rfl
    · rw [if_neg hf] at h
      simp at h
  · exact pct10_of_mem_dated entries total ev h

lemma pct10_round (t s : Nat) (ht : 0 < t) : roundHalfUpPermille t s (pct10 t s) := by
  unfold pct10 roundHalfUpPermille
  rw [if_pos ht]
  have h2t : 0 < 2 * t := by omega
  have h1 := Nat.div_add_mod (2000 * s + t) (2 * t)
  have h2 := Nat.mod_lt (2000 * s + t) h2t
  constructor
  · conv_rhs => rw [← h1]
    exact Nat.le_add_right _ _
  · conv_lhs => rw [← h1]
    rw [Nat.mul_succ]
    exact Nat.add_lt_add_left h2 _

lemma roundHalfUpPermille_unique (t s r1 r2 : Nat)
    (h1 : roundHalfUpPermille t s r1) (h2 : roundHalfUpPermille t s r2) : r1 = r2 := by
  obtain ⟨h1a, h1b⟩ := h1
  obtain ⟨h2a, h2b⟩ := h2
  have k1 : r1 < r2 + 1 := Nat.lt_of_mul_lt_mul_left (lt_of_le_of_lt h1a h2b)
  have k2 : r2 < r1 + 1 := Nat.lt_of_mul_lt_mul_left (lt_of_le_of_lt h2a h1b)
  omega

lemma sumPct10_bound (t : Nat) (ht : 0 < t) :
    ∀ evs : List UnlockEvent, (∀ ev ∈ evs, ev.pct10 = pct10 t ev.shares) →
      (2 * t * sumPct10 evs : Int) - 2000 * sumShares evs ≤ t * evs.length ∧
      -(t * evs.length : Int) ≤ (2 * t * sumPct10 evs : Int) - 2000 * sumShares evs := by
  intro evs
  induction evs with
  | nil => intro _; simp [sumPct10, sumShares]
  | cons ev evs ih =>
      intro h
      have hev := h ev (List.mem_cons_self ev evs)
      obtain ⟨hr1, hr2⟩ := pct10_round t ev.shares ht
      obtain ⟨h1, h2⟩ := ih (fun x hx => h x (List.mem_cons_of_mem ev hx))
      simp only [sumPct10, sumShares, List.map_cons, List.sum_cons, List.length_cons]
      rw [hev]
      have hr1i : (2 * t * pct10 t ev.shares : Int) ≤ 2000 * ev.shares + t := by
        exact_mod_cast hr1
      have hr2i : (2000 * ev.shares + t : Int) < 2 * t * (pct10 t ev.shares + 1) := by
        exact_mod_cast hr2
      simp only [sumPct10, sumShares] at h1 h2
      constructor
      · push_cast
        push_cast at h1
        nlinarith [hr1i, h1]
      · push_cast
        push_cast at h2
        nlinarith [hr2i, h2]

lemma filter_datedEventsOf (entries : List LockInEntry) (total : Nat) :
    (datedEventsOf entries total).filter (fun ev => ev.date.isSome) =
      datedEventsOf entries total := by
  rw [datedEventsOf]
  generalize sortByKey (unlockMapOf entries) = l
  induction l with
  | nil => simp
  | cons p rest ih => simpa using ih

lemma filter_buildUnlockEvents (entries : List LockInEntry) (total : Nat) :
    (buildUnlockEvents entries total).unlockEvents.filter (fun ev => ev.date.isSome) =
      datedEventsOf entries total := by
  rw [buildUnlockEvents_eq]
  by_cases hf : 0 < freeSum entries
  · simp only [if_pos hf]
    simp [List.filter_append, bucketEvent, filter_datedEventsOf entries total]
  · simp only [if_neg hf]
    simp [filter_datedEventsOf entries total]

lemma filterMap_date_datedEventsOf (entries : List LockInEntry) (total : Nat) :
    (datedEventsOf entries total).filterMap UnlockEvent.date =
      (sortByKey (unlockMapOf entries)).map Prod.fst := by
  rw [datedEventsOf]
  generalize sortByKey (unlockMapOf entries) = l
  induction l with
  | nil => simp
  | cons p rest ih => simpa using ih

lemma pairwise_dates_datedEventsOf (entries : List LockInEntry) (total : Nat) :
    ((datedEventsOf entries total).filterMap UnlockEvent.date).Pairwise
      (fun a b => a < b) := by
  rw [filterMap_date_datedEventsOf]
  have hperm := (sortByKey_perm (unlockMapOf entries)).map Prod.fst
  have hnodup : (keysOf (sortByKey (unlockMapOf entries))).Nodup :=
    (hperm.nodup_iff).2 (nodup_keysOf_unlockMapOf entries)
  have hlt := pairwise_lt_of_le_nodup _ (pairwise_sortByKey _) hnodup
  exact (List.pairwise_map).2 hlt

lemma dated_event_spec (entries : List LockInEntry) (total : Nat) (ev : UnlockEvent)
    (h : ev ∈ datedEventsOf entries total) :
    ∃ d, ev.date = some d ∧ ev.shares = scheduledSumOn entries d ∧
      ∃ e ∈ entries, e.isLocked = true ∧ e.unlockDate = some d := by
  rw [datedEventsOf] at h
  obtain ⟨p, hp, h2⟩ := List.mem_map.1 h
  have hpm : p ∈ unlockMapOf entries :=
    ((sortByKey_perm (unlockMapOf entries)).mem_iff).1 hp
  have hkey : p.1 ∈ keysOf (unlockMapOf entries) := List.mem_map_of_mem Prod.fst hpm
  have hval : lookupD (unlockMapOf entries) p.1 = p.2 :=
    lookupD_eq_of_mem _ p.1 p.2 hpm (nodup_keysOf_unlockMapOf entries)
  refine ⟨p.1, ?_, ?_, (mem_keysOf_unlockMapOf entries p.1).1 hkey⟩
  · rw [← h2]
  · rw [← h2]
    show p.2 = scheduledSumOn entries p.1
    rw [← hval, lookupD_unlockMapOf]

lemma dated_event_cover (entries : List LockInEntry) (total : Nat) (e : LockInEntry)
    (he : e ∈ entries) (hb : e.isLocked = true) (d : Int) (hd : e.unlockDate = some d) :
    ∃ ev ∈ datedEventsOf entries total, ev.date = some d := by
  have hkey : d ∈ keysOf (unlockMapOf entries) :=
    (mem_keysOf_unlockMapOf entries d).2 ⟨e, he, hb, hd⟩
  have hmem : (d, lookupD (unlockMapOf entries) d) ∈ unlockMapOf entries :=
    mem_of_key_mem _ d hkey
  have hmem2 : (d, lookupD (unlockMapOf entries) d) ∈ sortByKey (unlockMapOf entries) :=
    ((sortByKey_perm _).mem_iff).2 hmem
  exact ⟨_, List.mem_map_of_mem _ hmem2, rfl⟩

/-- C2: for entries respecting the data-model invariant `shares > 0`,
`buildUnlockEvents` sums the not-locked entries into one synthetic
"Not under lock-in" event placed at index 0 (present exactly when such
an entry exists), drops locked entries without an unlock date, groups
the remaining entries by calendar day summing shares per day, and
lists the dated events in strictly ascending date order after the
null-date event. -/
theorem buildUnlockEvents_spec (entries : List LockInEntry) (total : Nat)
    (hpos : ∀ e ∈ entries, 0 < e.shares) :
    ((∃ e ∈ entries, e.isLocked = false) →
        (buildUnlockEvents entries total).unlockEvents =
          { date := none, shares := freeSum entries,
            pct10 := pct10 total (freeSum entries),
            label := some "Not under lock-in" } ::
            (buildUnlockEvents entries total).unlockEvents.filter
              (fun ev => ev.date.isSome)) ∧
    ((¬ ∃ e ∈ entries, e.isLocked = false) →
        (buildUnlockEvents entries total).unlockEvents =
          (buildUnlockEvents entries total).unlockEvents.filter
            (fun ev => ev.date.isSome)) ∧
    (((buildUnlockEvents entries total).unlockEvents.filter
        (fun ev => ev.date.isSome)).filterMap UnlockEvent.date).Pairwise
      (fun a b => a < b) ∧
    (∀ ev ∈ (buildUnlockEvents entries total).unlockEvents.filter
        (fun ev => ev.date.isSome),
      ∃ d, ev.date = some d ∧ ev.shares = scheduledSumOn entries d ∧
        ∃ e ∈ entries, e.isLocked = true ∧ e.unlockDate = some d) ∧
    (∀ e ∈ entries, e.isLocked = true → ∀ d, e.unlockDate = some d →
      ∃ ev ∈ (buildUnlockEvents entries total).unlockEvents.filter
          (fun ev => ev.date.isSome), ev.date = some d) := by
  refine ⟨?_, ?_, ?_, ?_, ?_⟩
  · intro hfree
    have hf := freeSum_pos entries hpos hfree
    rw [filter_buildUnlockEvents, buildUnlockEvents_eq]
    simp [if_pos hf, bucketEvent]
  · intro hfree
    have hf : freeSum entries = 0 := freeSum_eq_zero entries hfree
    rw [filter_buildUnlockEvents, buildUnlockEvents_eq]
    simp [hf]
  · rw [filter_buildUnlockEvents]
    exact pairwise_dates_datedEventsOf entries total
  · rw [filter_buildUnlockEvents]
    exact fun ev h => dated_event_spec entries total ev h
  · rw [filter_buildUnlockEvents]
    exact fun e he hb d hd => dated_event_cover entries total e he hb d hd

/-- Witness for C2 at a concrete input. -/
theorem buildUnlockEvents_spec_witness :
    (buildUnlockEvents [⟨5, false, none⟩, ⟨7, true, some 3⟩] 12).unlockEvents =
      { date := none, shares := freeSum [⟨5, false, none⟩, ⟨7, true, some 3⟩],
        pct10 := pct10 12 (freeSum [⟨5, false, none⟩, ⟨7, true, some 3⟩]),
        label := some "Not under lock-in" } ::
        (buildUnlockEvents [⟨5, false, none⟩, ⟨7, true, some 3⟩] 12).unlockEvents.filter
          (fun ev => ev.date.isSome) :=
  (buildUnlockEvents_spec [⟨5, false, none⟩, ⟨7, true, some 3⟩] 12 (by decide)).1
    (by decide)

/-- C3 counterexample: for `entries = [{shares := 100, locked := false}]`
and `totalShares = 100000 > 0`, the single produced event has
percentage 0.1, so the percentages sum to 0.1, not approximately 100
(the claim quantifies over every `totalShares`, but the percentage-sum
property only holds when `totalShares` matches the aggregated
shares). -/
theorem aggregation_percentages_counterexample :
    sumShares (buildUnlockEvents [⟨100, false, none⟩] 100000).unlockEvents =
      contributingSum [⟨100, false, none⟩] ∧
    0 < (100000 : Nat) ∧
    ¬ (((sumPct10 (buildUnlockEvents [⟨100, false, none⟩] 100000).unlockEvents : Int)
          - 1000).natAbs ≤
        (buildUnlockEvents [⟨100, false, none⟩] 100000).unlockEvents.length) := by
  decide

/-- C3 (amended): the aggregation always conserves shares — the events
sum to the shares of exactly the entries with a non-null unlock date
or `locked = false` — and when `totalShares` equals that aggregated
sum and is positive, the percentages (in tenths) sum to 1000 within
one tenth (0.1 percent) per produced event. -/
theorem aggregation_conservation (entries : List LockInEntry) (total : Nat) :
    sumShares (buildUnlockEvents entries total).unlockEvents = contributingSum entries ∧
    (total = contributingSum entries → 0 < total →
      (((sumPct10 (buildUnlockEvents entries total).unlockEvents : Int) - 1000).natAbs ≤
        (buildUnlockEvents entries total).unlockEvents.length)) := by
  constructor
  · rw [sumShares_buildUnlockEvents, contributingSum_eq]
  · intro htot ht
    have hm : ∀ ev ∈ (buildUnlockEvents entries total).unlockEvents,
        ev.pct10 = pct10 total ev.shares :=
      fun ev h => pct10_of_mem entries total ev h
    obtain ⟨b1, b2⟩ :=
      sumPct10_bound total ht (buildUnlockEvents entries total).unlockEvents hm
    have hsum : sumShares (buildUnlockEvents entries total).unlockEvents = total := by
      rw [sumShares_buildUnlockEvents, ← contributingSum_eq, ← htot]
    rw [hsum] at b1 b2
    have hti : (0 : Int) < total := by exact_mod_cast ht
    set S : Int := (sumPct10 (buildUnlockEvents entries total).unlockEvents : Int) with hS
    set n : Int := ((buildUnlockEvents entries total).unlockEvents.length : Int) with hn
    have e1 : (2 * (total : Int) * S - 2000 * total) = total * (2 * S - 2000) := by ring
    have e2 : -((total : Int) * n) = total * (-n) := by ring
    have c1 : 2 * S - 2000 ≤ n := by
      have hb := b1
      rw [e1] at hb
      exact (mul_le_mul_left hti).1 hb
    have c2 : -n ≤ 2 * S - 2000 := by
      have hb := b2
      rw [e2, e1] at hb
      exact (mul_le_mul_left hti).1 hb
    omega

/-- Witness for C3 (amended) at a concrete input. -/
theorem aggregation_conservation_witness :
    sumShares (buildUnlockEvents [⟨50, true, some 0⟩, ⟨50, false, none⟩] 100).unlockEvents =
      contributingSum [⟨50, true, some 0⟩, ⟨50, false, none⟩] ∧
    (((sumPct10
          (buildUnlockEvents [⟨50, true, some 0⟩, ⟨50, false, none⟩] 100).unlockEvents :
        Int) - 1000).natAbs ≤
      (buildUnlockEvents [⟨50, true, some 0⟩, ⟨50, false, none⟩] 100).unlockEvents.length) :=
  ⟨(aggregation_conservation [⟨50, true, some 0⟩, ⟨50, false, none⟩] 100).1,
    (aggregation_conservation [⟨50, true, some 0⟩, ⟨50, false, none⟩] 100).2
      (by decide) (by decide)⟩

/-- C9: every produced event carries the percentage
`round((groupShares / totalShares) * 1000) / 10` with round half away
from zero (stated in tenths of a percent: the `pct10` field is the
unique half-up rounding of the per-mille value), and percentage 0 when
`totalShares = 0`. -/
theorem percentage_rounding (entries : List LockInEntry) (total : Nat) (ev : UnlockEvent)
    (h : ev ∈ (buildUnlockEvents entries total).unlockEvents) :
    (0 < total → roundHalfUpPermille total ev.shares ev.pct10 ∧
      ∀ r, roundHalfUpPermille total ev.shares r → r = ev.pct10) ∧
    (total = 0 → ev.pct10 = 0) := by
  have hp := pct10_of_mem entries total ev h
  constructor
  · intro ht
    rw [hp]
    exact ⟨pct10_round total ev.shares ht,
      fun r hr =>
        roundHalfUpPermille_unique total ev.shares r _ hr (pct10_round total ev.shares ht)⟩
  · intro h0
    rw [hp, h0]
    simp [pct10]

/-- Witness for C9 at a concrete input. -/
theorem percentage_rounding_witness : roundHalfUpPermille 100 60 600 :=
  ((percentage_rounding [⟨60, true, some 0⟩] 100 ⟨some 0, 60, 600, none⟩ (by decide)).1
    (by decide)).1

/-! ## Lemmas about the locator and retriever -/

lemma firstSome_map_none {α : Type} (f : Int → Option α) (h : ∀ i, f i = none) :
    ∀ l : List Int, firstSome (l.map f) = none := by
  intro l
  induction l with
  | nil => rfl
  | cons x xs ih =>
      simp only [List.map_cons, h x]
      exact ih

lemma findNSECircular_eq_none (env : ScrapeEnv) (cn ld : String)
    (h : env.nseCircular = none) : findNSECircular env cn ld = none := by
  unfold findNSECircular
  split
  · rfl
  · split
    · rfl
    · exact h

lemma findBSENotice_eq_none (env : ScrapeEnv) (cn ld : String)
    (h2 : env.smeNotice = none) (h3 : ∀ i, env.scan i = none) :
    findBSENotice env cn ld = none := by
  unfold findBSENotice
  split
  · rfl
  · rw [h2]
    cases parseListingDate ld with
    | none => rfl
    | some d => exact firstSome_map_none env.scan h3 (noticeDates d)

lemma dedupSeen_of_disjoint : ∀ (l seen : List Int),
    (∀ x ∈ l, x ∉ seen) → l.Nodup → dedupSeen seen l = l := by
  intro l
  induction l with
  | nil => intro seen _ _; rfl
  | cons x xs ih =>
      intro seen hdisj h
      rw [List.nodup_cons] at h
      have hx : x ∉ seen := hdisj x (List.mem_cons_self x xs)
      rw [dedupSeen, if_neg hx]
      congr 1
      apply ih (x :: seen) ?_ h.2
      intro y hy
      rw [List.mem_cons]
      rintro (h2 | h2)
      · exact h.1 (h2 ▸ hy)
      · exact hdisj y (List.mem_cons_of_mem x hy) h2

lemma dedupKeepFirst_of_nodup (l : List Int) (h : l.Nodup) : dedupKeepFirst l = l :=
  dedupSeen_of_disjoint l [] (fun x _ => List.not_mem_nil x) h

lemma noticeDatesList_nodup (d : Int) :
    ([d, d - 1, d + 1, d - 2, d + 2, d - 3, d + 3, d - 4, d + 4, d - 5, d + 5] :
      List Int).Nodup := by
  simp [List.nodup_cons, List.mem_cons]
  omega

/-- C7 counterexample: for listing day 0 the generated candidate list
is not the claimed forward-then-backward sequence 0, +1, −1, +2,
−2, …. -/
theorem noticeDates_counterexample :
    noticeDates 0 ≠ [0, 1, -1, 2, -2, 3, -3, 4, -4, 5, -5] := by
  decide

/-- C7 (amended): the candidate dates are ordered by increasing
offset, but at each positive offset the backward date comes first:
the sequence is 0, −1, +1, −2, +2, … up to ±5 days. -/
theorem noticeDates_order (d : Int) :
    noticeDates d =
      [d, d - 1, d + 1, d - 2, d + 2, d - 3, d + 3, d - 4, d + 4, d - 5, d + 5] := by
  have h6 : List.range 6 = [0, 1, 2, 3, 4, 5] := rfl
  have hraw : ((List.range 6).foldl
      (fun acc off =>
        acc ++ (if off = 0 then [] else [d - (off : Int)]) ++ [d + (off : Int)])
      []) =
      [d, d - 1, d + 1, d - 2, d + 2, d - 3, d + 3, d - 4, d + 4, d - 5, d + 5] := by
    rw [h6]
    norm_num
  unfold noticeDates
  rw [hraw]
  exact dedupKeepFirst_of_nodup _ (noticeDatesList_nodup d)

/-- C5 counterexample: when every server-side strategy yields nothing
and the hint names BSE, the returned object carries a fourth field
`source: "BSE"` besides `needsBSESearch`, `listingDate` and
`companyName`, so the result is not exactly the three-field object. -/
theorem delegation_fields_counterexample :
    (getUnlockPercentages envNone "ACME STEEL" "BSE" "2026-01-15").jsonFields ≠
      ["needsBSESearch", "listingDate", "companyName"] ∧
    (getUnlockPercentages envNone "ACME STEEL" "BSE" "2026-01-15").jsonFields =
      ["needsBSESearch", "listingDate", "companyName", "source"] := by
  decide

/-- C5 (amended): when the NSE lookup, the BSE SME search and the BSE
identifier scan all yield nothing and the listing date is present, the
resolver returns the BSE-search delegation signal (with fields
needsBSESearch, listingDate, companyName and source = "BSE") exactly
when the exchange hint names BSE, and NotFound otherwise. -/
theorem delegation_trigger (env : ScrapeEnv) (cn ex ld : String)
    (h1 : env.nseCircular = none) (h2 : env.smeNotice = none)
    (h3 : ∀ i, env.scan i = none) (h4 : ld ≠ "") :
    getUnlockPercentages env cn ex ld =
      if hasBSEHint ex then Outcome.bseSearch ld cn "BSE" else Outcome.notFound := by
  unfold getUnlockPercentages
  rw [if_neg h4, findNSECircular_eq_none env cn ld h1, findBSENotice_eq_none env cn ld h2 h3]

/-- Witness for C5 (amended) at a concrete input. -/
theorem delegation_trigger_witness :
    getUnlockPercentages envNone "ACME STEEL" "BSE SME" "2026-01-15" =
      Outcome.bseSearch "2026-01-15" "ACME STEEL" "BSE" := by
  have h := delegation_trigger envNone "ACME STEEL" "BSE SME" "2026-01-15"
    rfl rfl (fun _ => rfl) (by decide)
  rw [if_pos (by decide)] at h
  exact h

/-- C6 counterexample: with a missing company name and an exchange
hint naming BSE, the resolver does not return NotFound — it returns
the BSE-search delegation signal. -/
theorem malformed_input_counterexample :
    getUnlockPercentages envNone "" "BSE" "2026-01-15" ≠ Outcome.notFound ∧
    getUnlockPercentages envNone "" "BSE" "2026-01-15" =
      Outcome.bseSearch "2026-01-15" "" "BSE" := by
  decide

/-- C6 (amended): a missing listing date short-circuits immediately to
NotFound; a missing company name makes both lookups yield nothing,
after which the result is the BSE delegation signal when the hint
names BSE and NotFound otherwise; an unparseable (non-empty) listing
date disables the NSE lookup and the identifier scan but not the SME
search, so when the SME search also yields nothing the outcome is
likewise delegation-or-NotFound. -/
theorem malformed_input_behavior (env : ScrapeEnv) (cn ex ld : String) :
    (getUnlockPercentages env cn ex "" = Outcome.notFound) ∧
    (ld ≠ "" → getUnlockPercentages env "" ex ld =
      if hasBSEHint ex then Outcome.bseSearch ld "" "BSE" else Outcome.notFound) ∧
    (ld ≠ "" → parseListingDate ld = none → env.smeNotice = none →
      getUnlockPercentages env cn ex ld =
        if hasBSEHint ex then Outcome.bseSearch ld cn "BSE" else Outcome.notFound) := by
  refine ⟨?_, ?_, ?_⟩
  · unfold getUnlockPercentages
    rw [if_pos rfl]
  · intro h4
    have hn : findNSECircular env "" ld = none := by
      unfold findNSECircular
      simp
    have hb : findBSENotice env "" ld = none := by
      unfold findBSENotice
      simp
    unfold getUnlockPercentages
    rw [if_neg h4, hn, hb]
  · intro h4 hpl hsme
    have hn : findNSECircular env cn ld = none := by
      unfold findNSECircular
      split
      · rfl
      · rw [if_pos (by simp [hpl])]
    have hb : findBSENotice env cn ld = none := by
      unfold findBSENotice
      split
      · rfl
      · rw [hsme, hpl]
    unfold getUnlockPercentages
    rw [if_neg h4, hn, hb]

/-- Witness for C6 (amended) at a concrete input. -/
theorem malformed_input_behavior_witness :
    getUnlockPercentages envNone "" "NSE, BSE" "2026-01-15" =
      Outcome.bseSearch "2026-01-15" "" "BSE" := by
  have h := (malformed_input_behavior envNone "" "NSE, BSE" "2026-01-15").2.1 (by decide)
  rw [if_pos (by decide)] at h
  exact h

/-- C8 counterexample: a 50-byte payload delivered by the primary
(axios) path with status 200 is returned as a successful download —
the 100-byte minimum is never checked on that path. -/
theorem download_small_primary_counterexample :
    downloadBSEPDF (some (200, List.replicate 50 7)) none =
      Except.ok (List.replicate 50 7) ∧
    (List.replicate 50 7).length < 100 :=
  ⟨rfl, by decide⟩

/-- C8 (amended): only the curl fallback path rejects sub-100-byte
payloads (raising the retrieval failure); a primary-path response with
status 200 is returned whatever its size, and any non-200 status or a
thrown primary request falls through to the curl fallback. -/
theorem download_size_check (axiosBody b : List Nat) (curl : Option (List Nat)) (st : Nat) :
    (downloadBSEPDF (some (200, axiosBody)) curl = Except.ok axiosBody) ∧
    (st ≠ 200 → downloadBSEPDF (some (st, axiosBody)) curl = bseCurlFallback curl) ∧
    (downloadBSEPDF none curl = bseCurlFallback curl) ∧
    (b.length < 100 →
      bseCurlFallback (some b) =
        Except.error "curl PDF download returned empty or too-small response") ∧
    (100 ≤ b.length → bseCurlFallback (some b) = Except.ok b) ∧
    (bseCurlFallback none =
      Except.error "curl PDF download returned empty or too-small response") := by
  refine ⟨rfl, ?_, rfl, ?_, ?_, rfl⟩
  · intro h
    simp [downloadBSEPDF, h]
  · intro h
    simp [bseCurlFallback, h]
  · intro h
    simp only [bseCurlFallback]
    rw [if_neg (by omega)]

/-- Witness for C8 (amended) at concrete inputs. -/
theorem download_size_check_witness :
    downloadBSEPDF (some (403, [1, 2, 3])) (some [9, 9, 9]) =
      bseCurlFallback (some [9, 9, 9]) ∧
    bseCurlFallback (some [9, 9, 9]) =
      Except.error "curl PDF download returned empty or too-small response" :=
  ⟨(download_size_check [1, 2, 3] [9, 9, 9] (some [9, 9, 9]) 403).2.1 (by decide),
    (download_size_check [1, 2, 3] [9, 9, 9] (some [9, 9, 9]) 403).2.2.2.1 (by decide)⟩

/-! ## Lemmas about the extractor: every parser path keeps the
running total equal to the sum of the collected entries, and only
collects entries with positive share counts. -/

lemma foldl_preserve {α β : Type} (P : β → Prop) (f : β → α → β)
    (hf : ∀ b a, P b → P (f b a)) :
    ∀ (l : List α) (b : β), P b → P (l.foldl f b) := by
  intro l
  induction l with
  | nil => intro b h; exact h
  | cons x xs ih => intro b h; exact ih _ (hf b x h)

lemma sumEntryShares_append (l1 l2 : List LockInEntry) :
    sumEntryShares (l1 ++ l2) = sumEntryShares l1 + sumEntryShares l2 := by
  simp [sumEntryShares]

lemma sumEntryShares_cons (e : LockInEntry) (l : List LockInEntry) :
    sumEntryShares (e :: l) = e.shares + sumEntryShares l := by
  simp [sumEntryShares]

lemma entryInv_nil : EntryInv ([], 0) := by
  constructor
  · rfl
  · intro e he; simp at he

lemma entryInv_append_entry (r : List LockInEntry × Nat) (e : LockInEntry)
    (h : EntryInv r) (he : 0 < e.shares) : EntryInv (r.1 ++ [e], r.2 + e.shares) := by
  constructor
  · rw [sumEntryShares_append, ← h.1]
    simp [sumEntryShares]
  · intro x hx
    rcases List.mem_append.1 hx with h2 | h2
    · exact h.2 x h2
    · rw [List.mem_singleton.1 h2]
      exact he

lemma entryInv_combine (r r2 : List LockInEntry × Nat)
    (h : EntryInv r) (h2 : EntryInv r2) : EntryInv (r.1 ++ r2.1, r.2 + r2.2) := by
  constructor
  · rw [sumEntryShares_append, h.1, h2.1]
  · intro x hx
    rcases List.mem_append.1 hx with h3 | h3
    · exact h.2 x h3
    · exact h2.2 x h3

lemma entryInv_nseRowStep :
    ∀ (acc : List LockInEntry × Nat) (row : List Char × NSETrail),
      EntryInv acc → EntryInv (nseRowStep acc row) := by
  intro acc row h
  obtain ⟨g1, tr⟩ := row
  by_cases hs : parseIndianNumber g1 = 0
  · simpa [nseRowStep, hs] using h
  · cases tr with
    | free =>
        have h2 := entryInv_append_entry acc ⟨parseIndianNumber g1, false, none⟩ h
          (Nat.pos_of_ne_zero hs)
        simpa [nseRowStep, hs] using h2
    | dated tok =>
        have h2 := entryInv_append_entry acc
          ⟨parseIndianNumber g1, true, parseBSEDate tok⟩ h (Nat.pos_of_ne_zero hs)
        simpa [nseRowStep, hs] using h2

lemma entryInv_nseFallbackStep :
    ∀ (acc : List LockInEntry × Nat) (seg : List Char),
      EntryInv acc → EntryInv (nseFallbackStep acc seg) := by
  intro acc seg h
  cases hd : digitRuns seg with
  | nil => simpa [nseFallbackStep, hd] using h
  | cons n0 ns =>
      by_cases hs : parseIndianNumber n0 = 0
      · simpa [nseFallbackStep, hd, hs] using h
      · by_cases hfree : hasFreeWord seg = true
        · have h2 := entryInv_append_entry acc ⟨parseIndianNumber n0, false, none⟩ h
            (Nat.pos_of_ne_zero hs)
          simpa [nseFallbackStep, hd, hs, hfree] using h2
        · cases hdm : firstNseDate seg.length seg with
          | none => simpa [nseFallbackStep, hd, hs, hfree, hdm] using h
          | some tok =>
              have h2 := entryInv_append_entry acc
                ⟨parseIndianNumber n0, true, parseBSEDate tok⟩ h (Nat.pos_of_ne_zero hs)
              simpa [nseFallbackStep, hd, hs, hfree, hdm] using h2

lemma entryInv_rows (rows : List (List Char × NSETrail)) :
    EntryInv (rows.foldl nseRowStep ([], 0)) :=
  foldl_preserve EntryInv nseRowStep entryInv_nseRowStep rows ([], 0) entryInv_nil

lemma entryInv_parseNSEFallback (sect : List Char) (es0 : List LockInEntry) (t0 : Nat)
    (h : EntryInv (es0, t0)) : EntryInv (parseNSEFallback sect es0 t0) :=
  foldl_preserve EntryInv nseFallbackStep entryInv_nseFallbackStep (splitOnNl sect)
    (es0, t0) h

lemma entryInv_parseNSEFormat (text : List Char) : EntryInv (parseNSEFormat text) := by
  simp only [parseNSEFormat]
  split
  · exact entryInv_parseNSEFallback _ _ _ (entryInv_rows _)
  · exact entryInv_rows _

lemma mkBseEntry_shares (a : Nat) (text : List Char) (pos : Nat) :
    (mkBseEntry a text pos).shares = a := rfl

lemma findMathTripletInString_pos (str : List Char) (a : Nat)
    (h : findMathTripletInString str = some a) : 100 < a := by
  unfold findMathTripletInString at h
  obtain ⟨i, _, h2⟩ := List.exists_of_findSome?_eq_some h
  obtain ⟨j, _, h3⟩ := List.exists_of_findSome?_eq_some h2
  dsimp only at h3
  split at h3
  · split at h3
    · rename_i hc
      injection h3 with h4
      rw [← h4]
      exact hc.2
    · exact Option.noConfusion h3
  · exact Option.noConfusion h3

lemma bseRule1_pos (n : NumTok) (text : List Char) (used : List Nat) (i : Nat)
    (res : LockInEntry × List Nat) (h : bseRule1 n text used i = some res) :
    0 < res.1.shares := by
  unfold bseRule1 at h
  split at h
  · split at h
    · rename_i a ht
      injection h with h2
      rw [← h2]
      have := findMathTripletInString_pos n.rawStr a ht
      simp only [mkBseEntry_shares]
      omega
    · exact Option.noConfusion h
  · exact Option.noConfusion h

lemma bseRule15Try_pos (n nj : NumTok) (text : List Char) (used : List Nat)
    (i j split0 : Nat) (res : LockInEntry × List Nat)
    (h : bseRule15Try n nj text used i j split0 = some res) : 0 < res.1.shares := by
  unfold bseRule15Try at h
  dsimp only at h
  split at h
  · split at h
    · rename_i hc
      injection h with h2
      rw [← h2]
      simp only [mkBseEntry_shares]
      omega
    · exact Option.noConfusion h
  · exact Option.noConfusion h

lemma bseRule15_pos (nums : List NumTok) (n : NumTok) (text : List Char)
    (used : List Nat) (i : Nat) (res : LockInEntry × List Nat)
    (h : bseRule15 nums n text used i = some res) : 0 < res.1.shares := by
  unfold bseRule15 at h
  split at h
  · obtain ⟨j, _, h2⟩ := List.exists_of_findSome?_eq_some h
    split at h2
    · exact Option.noConfusion h2
    · split at h2
      · exact Option.noConfusion h2
      · obtain ⟨s, _, h3⟩ := List.exists_of_findSome?_eq_some h2
        exact bseRule15Try_pos _ _ _ _ _ _ _ _ h3
  · exact Option.noConfusion h

lemma bseRule2K_shares (nums : List NumTok) (n nj : NumTok) (text : List Char)
    (used : List Nat) (i j k : Nat) (res : LockInEntry × List Nat)
    (h : bseRule2K nums n nj text used i j k = some res) : res.1.shares = n.val := by
  unfold bseRule2K at h
  split at h
  · exact Option.noConfusion h
  · split at h
    · exact Option.noConfusion h
    · split at h
      · injection h with h2
        rw [← h2]
        rfl
      · exact Option.noConfusion h

lemma bseRule2J_shares (nums : List NumTok) (n : NumTok) (text : List Char)
    (used : List Nat) (i j : Nat) (res : LockInEntry × List Nat)
    (h : bseRule2J nums n text used i j = some res) : res.1.shares = n.val := by
  unfold bseRule2J at h
  split at h
  · exact Option.noConfusion h
  · split at h
    · exact Option.noConfusion h
    · split at h
      · injection h with h2
        rw [← h2]
        rfl
      · split at h
        · injection h with h2
          rw [← h2]
          rfl
        · obtain ⟨k, _, h3⟩ := List.exists_of_findSome?_eq_some h
          exact bseRule2K_shares _ _ _ _ _ _ _ _ _ h3

lemma bseStep_pos (nums : List NumTok) (text : List Char) (i : Nat) (used : List Nat)
    (res : LockInEntry × List Nat) (h : bseStep nums text i used = some res) :
    0 < res.1.shares := by
  unfold bseStep at h
  split at h
  · exact Option.noConfusion h
  · split at h
    · exact Option.noConfusion h
    · split at h
      · rename_i hr1
        injection h with h2
        subst h2
        exact bseRule1_pos _ _ _ _ _ hr1
      · split at h
        · rename_i hr15
          injection h with h2
          subst h2
          exact bseRule15_pos _ _ _ _ _ _ hr15
        · split at h
          · exact Option.noConfusion h
          · rename_i hval
            obtain ⟨j, _, h3⟩ := List.exists_of_findSome?_eq_some h
            have h4 := bseRule2J_shares _ _ _ _ _ _ _ h3
            omega

lemma entryInv_bseLoopGo (nums : List NumTok) (text : List Char) :
    ∀ (fuel i : Nat) (used : List Nat), EntryInv (bseLoopGo nums text fuel i used) := by
  intro fuel
  induction fuel with
  | zero => intro i used; exact entryInv_nil
  | succ fuel ih =>
      intro i used
      simp only [bseLoopGo]
      split
      · exact entryInv_nil
      · cases hs : bseStep nums text i used with
        | none => exact ih (i + 1) used
        | some p =>
            obtain ⟨e, u2⟩ := p
            dsimp only
            have hp := bseStep_pos nums text i used (e, u2) hs
            have hr := ih (i + 1) u2
            constructor
            · rw [sumEntryShares_cons, hr.1]
            · intro x hx
              rcases List.mem_cons.1 hx with h2 | h2
              · rw [h2]; exact hp
              · exact hr.2 x h2

lemma entryInv_bseLoopRun (nums : List NumTok) (text : List Char) :
    EntryInv (bseLoopRun nums text) :=
  entryInv_bseLoopGo nums text nums.length 0 []

lemma entryInv_proximityStep (nums : List NumTok) :
    ∀ (acc : List LockInEntry × Nat) (p : Nat × List Char),
      EntryInv acc → EntryInv (proximityStep nums acc p) := by
  intro acc p h
  cases hd : parseBSEDate p.2 with
  | none => simpa [proximityStep, hd] using h
  | some pd =>
      by_cases hc : 0 < closestNumBefore nums p.1
      · have h2 := entryInv_append_entry acc
          ⟨closestNumBefore nums p.1, true, some pd⟩ h hc
        simpa [proximityStep, hd, hc] using h2
      · simpa [proximityStep, hd, hc] using h

lemma entryInv_proximityRun (nums : List NumTok) (text : List Char) :
    EntryInv (proximityRun nums text) :=
  foldl_preserve EntryInv (proximityStep nums) (entryInv_proximityStep nums)
    (scanDates text) ([], 0) entryInv_nil

lemma entryInv_bseEntriesOf (norm : List Char) : EntryInv (bseEntriesOf norm) := by
  simp only [bseEntriesOf]
  split
  · exact entryInv_combine _ _ (entryInv_bseLoopRun _ _) (entryInv_proximityRun _ _)
  · exact entryInv_bseLoopRun _ _

lemma entryInv_parseLockInEntriesOf (raw : List Char) :
    EntryInv (parseLockInEntriesOf raw) := by
  simp only [parseLockInEntriesOf]
  split
  · exact entryInv_parseNSEFormat _
  · exact entryInv_bseEntriesOf _

lemma totalShares_buildUnlockEvents (es : List LockInEntry) (t : Nat) :
    (buildUnlockEvents es t).totalShares = t := by
  rw [buildUnlockEvents_eq]

/-- C10: for every input text, the events returned by
`parseLockInData` sum to at most the returned total, with strict
inequality exactly when some parsed entry was locked but had no
recoverable unlock date. -/
theorem extraction_total_bound (raw : List Char) :
    sumShares (parseLockInData raw).unlockEvents ≤ (parseLockInData raw).totalShares ∧
    (sumShares (parseLockInData raw).unlockEvents < (parseLockInData raw).totalShares ↔
      ∃ e ∈ (parseLockInEntriesOf raw).1, e.isLocked = true ∧ e.unlockDate = none) := by
  have hinv := entryInv_parseLockInEntriesOf raw
  have h1 : parseLockInData raw =
      buildUnlockEvents (parseLockInEntriesOf raw).1 (parseLockInEntriesOf raw).2 := rfl
  have hsum := sumShares_buildUnlockEvents (parseLockInEntriesOf raw).1
    (parseLockInEntriesOf raw).2
  have htot := totalShares_buildUnlockEvents (parseLockInEntriesOf raw).1
    (parseLockInEntriesOf raw).2
  have hpart := sumEntryShares_partition (parseLockInEntriesOf raw).1
  have hdrop := droppedSum_pos_iff (parseLockInEntriesOf raw).1 hinv.2
  rw [h1, hsum, htot, hinv.1, hpart]
  constructor
  · omega
  · constructor
    · intro h
      exact hdrop.1 (by omega)
    · intro h
      have := hdrop.2 h
      omega

/-- C1: on text consisting of the two rows
`8723813 1 8723813 20-Sep-2025` and `3242 17447641 17450882 Free` —
either bare (routed to the reconciliation parser) or under a
`Lock in up to` header (routed to the structured parser) — extraction
returns totalShares 8727055 with exactly the "Not under lock-in"
bucket of 3242 shares first and the 2025-09-20 event of 8723813 shares
second.  The computed one-decimal percentage of the dated event is
100.0 (the rounding of 99.96…), within 0.1 of the claimed 99.96: the
final conjunct states |100.0 - 99.96| ≤ 0.1 in hundredths of a
percent. -/
theorem scenarioA_structured :
    parseLockInData ("8723813 1 8723813 20-Sep-2025\n3242 17447641 17450882 Free".data) =
      { totalShares := 8727055,
        unlockEvents :=
          [{ date := none, shares := 3242, pct10 := 0, label := some "Not under lock-in" },
           { date := some (dateOf 2025 9 20), shares := 8723813, pct10 := 1000,
             label := none }] } ∧
    parseLockInData
        (("No. of Equity Shares From To Lock in up to " ++
          "8723813 1 8723813 20-Sep-2025 3242 17447641 17450882 Free").data) =
      { totalShares := 8727055,
        unlockEvents :=
          [{ date := none, shares := 3242, pct10 := 0, label := some "Not under lock-in" },
           { date := some (dateOf 2025 9 20), shares := 8723813, pct10 := 1000,
             label := none }] } ∧
    ((10 * (1000 : Int) - 9996).natAbs ≤ 10 ∧
      pct10 8727055 8723813 = 1000) := by
  refine ⟨by decide, by decide, by decide, by decide⟩

/-- C4 counterexample: on the single seven-digit run `1500000`
followed by `15-Jan-2026`, the reconciliation parser does not emit
shares 500000 — the run is too short for the glued-triplet rule
(which needs at least 8 raw digits), no other token exists, and the
proximity fallback emits the entry with shares 1500000. -/
theorem reconciliation_glued_counterexample :
    (bseEntriesOf ("1500000 15-Jan-2026".data)).1 =
      [⟨1500000, true, some (dateOf 2026 1 15)⟩] ∧
    ¬ ∃ e ∈ (bseEntriesOf ("1500000 15-Jan-2026".data)).1, e.shares = 500000 := by
  refine ⟨by decide, by decide⟩

/-- C4 (amended): for a masked text containing the single 13-digit
run `5000001500000` followed within the date window by `15-Jan-2026`,
the glued-triplet rule fires with the split A = 500000, B = 1,
C = 500000 (500000 = 500000 - 1 + 1) and the parser emits exactly
`{shares := 500000, locked := true, unlockDate := 2026-01-15}`. -/
theorem reconciliation_glued_amended :
    bseEntriesOf ("5000001500000 15-Jan-2026".data) =
      ([⟨500000, true, some (dateOf 2026 1 15)⟩], 500000) ∧
    findMathTripletInString ("5000001500000".data) = some 500000 := by
  refine ⟨by decide, by decide⟩

end IpoUnlock
